import Mathlib

/-!
Verification development for the wikilink-maintenance subsystem of an
Obsidian vault MCP server (sources: `utils/links.ts`, `utils/wikilinks.ts`,
`tools/remove-directory/index.ts`).

Texts are modelled as `List Char` (a JavaScript string is a sequence of
characters; none of the claims involve surrogate-pair subtleties).  The
JavaScript regular expressions used by the source are compiled by hand into
deterministic matchers: every character class used by the source excludes
the character that terminates it, so the backtracking search of the regex
engine never revisits a choice and leftmost/greedy matching coincides with
the straightforward scan implemented here.  `String.prototype.replace` with
a global regex is the scan `gsub` below: try a match at every position from
the left, emit the replacement and resume after the match, otherwise copy
one character.  The scan is written with explicit fuel (one unit per
character of the input) so that all definitions compute by kernel
reduction; every matcher consumes at least one character on success, hence
the fuel is never exhausted (`gsubF_fuel` below makes this
precise).
-/

/-- Node's `path.basename(p)` final-segment extraction (our inputs carry no
trailing slashes, which is the only case where Node differs from taking the
text after the last separator). -/
def baseNamePart (l : List Char) : List Char :=
  ((l.reverse).takeWhile (fun c => !(c == '/'))).reverse

/-- The `, '.md'` suffix handling of Node's `path.basename`: the extension is
stripped when the basename ends with it and is longer than it. -/
def stripMd (b : List Char) : List Char :=
  match b.reverse with
  | 'd' :: 'm' :: '.' :: (c :: rest) => (c :: rest).reverse
  | _ => b

/-- `path.basename(p, '.md')` as used throughout the source. -/
def basenameMd (l : List Char) : List Char :=
  stripMd (baseNamePart l)

/-- Node's `path.join(a, b)` for the well-formed inputs the source builds
(no `.` / `..` segments, no trailing separators). -/
def pathJoin (a b : List Char) : List Char :=
  if a = [] then b else if b = [] then a else a ++ '/' :: b

/-- Node's `path.relative(root, p)` for the case the source exercises,
where `p` was produced by `path.join(root, rel)`. -/
def pathRelative (root p : List Char) : List Char :=
  if (root ++ ['/']).isPrefixOf p then p.drop (root.length + 1) else p

/-- JavaScript `s.split(sep)` for a one-character separator. -/
def splitOnChar (sep : Char) : List Char → List (List Char)
  | [] => [[]]
  | c :: cs =>
    match splitOnChar sep cs with
    | [] => [[]]
    | h :: t => if c = sep then [] :: h :: t else (c :: h) :: t

/-- JavaScript `s.trim()`. -/
def trimWS (l : List Char) : List Char :=
  ((l.dropWhile Char.isWhitespace).reverse.dropWhile Char.isWhitespace).reverse

/-- Match a literal string at the head of the input, returning the rest. -/
def matchLit : List Char → List Char → Option (List Char)
  | [], s => some s
  | _, [] => none
  | c :: cs, d :: ds => if c = d then matchLit cs ds else none

/-- Character class `[^\]]` of the source's regexes. -/
def notRB (c : Char) : Bool := !(c == ']')

/-- Character class `[^\]|]` of the source's regexes. -/
def notRBPipe (c : Char) : Bool := !(c == ']') && !(c == '|')

/-- Character class `[^\]|#]` of the source's regexes. -/
def notRBPipeHash (c : Char) : Bool := !(c == ']') && !(c == '|') && !(c == '#')

/-!
### Matchers for the rewriter regexes of `updateWikiLinks`

The regexes are decomposed into their atoms: a literal character, an
interpolated literal name, a one-or-more character class, a zero-or-more
character class, and the shared optional-alias-then-close tail
`(?:\|(CLASS))?\]\]`.  Because `|` is excluded from every class preceding
the optional group and `]` is excluded from every class, the regex engine's
leftmost/greedy backtracking search is deterministic and equals these
functions.  Each matcher decides whether its regex matches at the start of
the input; on success it returns its capture groups together with the
unconsumed rest of the input.
-/

/-- Consume one expected literal character. -/
def expectChar (c : Char) (s : List Char) : Option (List Char) :=
  match s with
  | d :: r => if d = c then some r else none
  | [] => none

/-- Consume a non-empty greedy run of a character class (`CLASS+`). -/
def take1While (p : Char → Bool) (s : List Char) : Option (List Char × List Char) :=
  let t := s.takeWhile p
  if t = [] then none else some (t, s.dropWhile p)

/-- Consume a possibly-empty greedy run of a character class (`CLASS*`). -/
def take0While (p : Char → Bool) (s : List Char) : Option (List Char × List Char) :=
  some (s.takeWhile p, s.dropWhile p)

/-- The tail `(?:\|([^\]]+))?\]\]` shared by the rename/parse regexes:
either a pipe, a non-empty alias and the closing brackets, or the closing
brackets directly. -/
def tailAliasClose (s : List Char) : Option (Option (List Char) × List Char) :=
  match expectChar '|' s with
  | some s1 =>
    (take1While notRB s1).bind fun ar =>
    (expectChar ']' ar.2).bind fun s3 =>
    (expectChar ']' s3).map fun rest => (some ar.1, rest)
  | none =>
    (expectChar ']' s).bind fun s1 =>
    (expectChar ']' s1).map fun rest => ((none : Option (List Char)), rest)

/-- The tail `(?:\|[^\]]*)?\]\]` of the delete plain regex (the alias may
be empty here). -/
def tailAliasStarClose (s : List Char) : Option (Option (List Char) × List Char) :=
  match expectChar '|' s with
  | some s1 =>
    (take0While notRB s1).bind fun ar =>
    (expectChar ']' ar.2).bind fun s3 =>
    (expectChar ']' s3).map fun rest => (some ar.1, rest)
  | none =>
    (expectChar ']' s).bind fun s1 =>
    (expectChar ']' s1).map fun rest => ((none : Option (List Char)), rest)

/-- Rename/move heading regex: open open NAME `(#[^\]|]+)(?:\|([^\]]+))?`
close close.  Returns ((heading group including the hash, optional alias),
rest). -/
def rwHead (n : List Char) (s : List Char) :
    Option ((List Char × Option (List Char)) × List Char) :=
  (expectChar '[' s).bind fun s1 =>
  (expectChar '[' s1).bind fun s2 =>
  (matchLit n s2).bind fun s3 =>
  (expectChar '#' s3).bind fun s4 =>
  (take1While notRBPipe s4).bind fun hr =>
  (tailAliasClose hr.2).map fun ar => (('#' :: hr.1, ar.1), ar.2)

/-- Rename/move plain regex: open open NAME `(?:\|([^\]]+))?` close close.
Returns (optional alias, rest). -/
def rwPlain (n : List Char) (s : List Char) : Option (Option (List Char) × List Char) :=
  (expectChar '[' s).bind fun s1 =>
  (expectChar '[' s1).bind fun s2 =>
  (matchLit n s2).bind fun s3 =>
  tailAliasClose s3

/-- Rename/move embed regex: a bang, then the plain shape. -/
def rwEmbed (n : List Char) (s : List Char) : Option (Option (List Char) × List Char) :=
  (expectChar '!' s).bind fun s1 => rwPlain n s1

/-- The alias fragment of a reconstructed match text. -/
def aliasFrag : Option (List Char) → List Char
  | some a => '|' :: a
  | none => []

/-- Delete heading regex: open open NAME `#[^\]]*` close close.  Returns
(full matched text, rest); the replacement wraps the full match. -/
def delHead (n : List Char) (s : List Char) : Option (List Char × List Char) :=
  (expectChar '[' s).bind fun s1 =>
  (expectChar '[' s1).bind fun s2 =>
  (matchLit n s2).bind fun s3 =>
  (expectChar '#' s3).bind fun s4 =>
  (take0While notRB s4).bind fun hr =>
  (expectChar ']' hr.2).bind fun s5 =>
  (expectChar ']' s5).map fun rest =>
    ('[' :: '[' :: (n ++ '#' :: hr.1 ++ [']', ']']), rest)

/-- Delete plain regex: open open NAME `(?:\|[^\]]*)?` close close.
Returns (full matched text, rest). -/
def delPlain (n : List Char) (s : List Char) : Option (List Char × List Char) :=
  (expectChar '[' s).bind fun s1 =>
  (expectChar '[' s1).bind fun s2 =>
  (matchLit n s2).bind fun s3 =>
  (tailAliasStarClose s3).map fun ar =>
    ('[' :: '[' :: (n ++ aliasFrag ar.1 ++ [']', ']']), ar.2)

/-- Delete embed regex: a bang, then the delete plain shape (the bang is
part of the matched text). -/
def delEmbed (n : List Char) (s : List Char) : Option (List Char × List Char) :=
  (expectChar '!' s).bind fun s1 =>
  (delPlain n s1).map fun tr => ('!' :: tr.1, tr.2)


/-- One pass of JavaScript `String.prototype.replace` with a global regex:
the matcher is tried at each position from the left; on a match the
replacement is emitted and scanning resumes after the match. -/
def gsubF (tr : List Char → Option (List Char × List Char)) : Nat → List Char → List Char
  | _, [] => []
  | 0, s => s
  | fuel + 1, c :: cs =>
    match tr (c :: cs) with
    | some (repl, rest) => repl ++ gsubF tr fuel rest
    | none => c :: gsubF tr fuel cs

/-- Global replace, with fuel one per input character (sufficient: every
matcher consumes at least one character on success). -/
def gsub (tr : List Char → Option (List Char × List Char)) (s : List Char) : List Char :=
  gsubF tr s.length s

/-- Replacement text of the rename heading pass:
open open NEWNAME heading (pipe alias)? close close. -/
def renHeadRepl (newName : List Char) (g : List Char × Option (List Char)) : List Char :=
  '[' :: '[' :: (newName ++ g.1 ++ (match g.2 with | some a => '|' :: a | none => []) ++ [']', ']'])

/-- Replacement text of the rename plain pass. -/
def renPlainRepl (newName : List Char) (g : Option (List Char)) : List Char :=
  '[' :: '[' :: (newName ++ (match g with | some a => '|' :: a | none => []) ++ [']', ']'])

/-- Replacement text of the rename embed pass. -/
def renEmbedRepl (newName : List Char) (g : Option (List Char)) : List Char :=
  '!' :: renPlainRepl newName g

/-- Lift a capturing matcher and a replacement builder to the shape `gsub`
expects. -/
def withRepl {G : Type} (m : List Char → Option (G × List Char)) (f : G → List Char)
    (s : List Char) : Option (List Char × List Char) :=
  match m s with
  | some (g, rest) => some (f g, rest)
  | none => none

/-- Strike-through replacement of the delete passes. -/
def strikeRepl (t : List Char) : List Char := '~' :: '~' :: (t ++ ['~', '~'])

/-- `updateWikiLinks` from `wikilinks.ts`, on character lists.  `newPath`
absent is the delete branch; `moveToOtherVault` with a truthy
`destVaultName` is the cross-vault branch; otherwise the same-vault rename
branch.  Each branch is the source's three sequential global replaces. -/
def updateWikiLinksCore (content : List Char) (oldPath : List Char)
    (newPath : Option (List Char)) (destVaultName : Option (List Char))
    (moveToOtherVault : Bool) : List Char :=
  let n := basenameMd oldPath
  match newPath with
  | none =>
    gsub (withRepl (delEmbed n) strikeRepl)
      (gsub (withRepl (delPlain n) strikeRepl)
        (gsub (withRepl (delHead n) strikeRepl) content))
  | some np =>
    let newName := basenameMd np
    match destVaultName with
    | some d =>
      if moveToOtherVault && !(d = []) then
        let pfx := d ++ ['/']
        gsub (withRepl (rwEmbed n) (renEmbedRepl (pfx ++ n)))
          (gsub (withRepl (rwPlain n) (renPlainRepl (pfx ++ n)))
            (gsub (withRepl (rwHead n) (renHeadRepl (pfx ++ n))) content))
      else
        gsub (withRepl (rwEmbed n) (renEmbedRepl newName))
          (gsub (withRepl (rwPlain n) (renPlainRepl newName))
            (gsub (withRepl (rwHead n) (renHeadRepl newName)) content))
    | none =>
      gsub (withRepl (rwEmbed n) (renEmbedRepl newName))
        (gsub (withRepl (rwPlain n) (renPlainRepl newName))
          (gsub (withRepl (rwHead n) (renHeadRepl newName)) content))

/-- `updateWikiLinks` at `String` granularity (the exported signature). -/
def updateWikiLinks (content oldPath : String) (newPath : Option String)
    (destVaultName : Option String) (moveToOtherVault : Bool) : String :=
  ⟨updateWikiLinksCore content.data oldPath.data (newPath.map String.data)
    (destVaultName.map String.data) moveToOtherVault⟩


/-!
### The link parser `findWikiLinks` of `wikilinks.ts`

Three regex scans per line: heading links first, then plain links (skipped
when some already-collected link has exactly the same raw text), then embed
links (always pushed).  The `links` array is shared across lines, so the
plain-scan deduplication compares against every link collected so far, not
only those of the current line.
-/

/-- One parsed link occurrence (`WikiLink` of `wikilinks.ts`).  Fields that
the source leaves `undefined` on some shapes (`alias`, `heading`) are
`Option`s. -/
structure WikiLink where
  text : List Char
  target : List Char
  «alias» : Option (List Char)
  heading : Option (List Char)
  line : Nat
  context : List Char
  isHeading : Bool
deriving DecidableEq, Repr

/-- Parser heading regex `HEADING_LINK_REGEX`: open open `([^\]|#]+)` hash
`([^\]|]+)` `(?:\|([^\]]+))?` close close.
Returns ((target, heading, optional alias, full text), rest). -/
def pHead (s : List Char) :
    Option ((List Char × List Char × Option (List Char) × List Char) × List Char) :=
  (expectChar '[' s).bind fun s1 =>
  (expectChar '[' s1).bind fun s2 =>
  (take1While notRBPipeHash s2).bind fun tg =>
  (expectChar '#' tg.2).bind fun s3 =>
  (take1While notRBPipe s3).bind fun hd =>
  (tailAliasClose hd.2).map fun ar =>
    ((tg.1, hd.1, ar.1,
      '[' :: '[' :: (tg.1 ++ '#' :: hd.1 ++ aliasFrag ar.1 ++ [']', ']'])), ar.2)

/-- Parser plain regex `WIKI_LINK_REGEX`: open open `([^\]|]+)`
`(?:\|([^\]]+))?` close close.  Returns ((target, optional alias, full
text), rest). -/
def pPlain (s : List Char) :
    Option ((List Char × Option (List Char) × List Char) × List Char) :=
  (expectChar '[' s).bind fun s1 =>
  (expectChar '[' s1).bind fun s2 =>
  (take1While notRBPipe s2).bind fun tg =>
  (tailAliasClose tg.2).map fun ar =>
    ((tg.1, ar.1, '[' :: '[' :: (tg.1 ++ aliasFrag ar.1 ++ [']', ']'])), ar.2)

/-- Parser embed regex `EMBEDDED_LINK_REGEX`: bang, then the plain shape
(the full text includes the bang). -/
def pEmbed (s : List Char) :
    Option ((List Char × Option (List Char) × List Char) × List Char) :=
  (expectChar '!' s).bind fun s1 =>
  (pPlain s1).map fun gr => ((gr.1.1, gr.1.2.1, '!' :: gr.1.2.2), gr.2)

/-- The `while (regex.exec(line))` loop: all successive non-overlapping
matches of a regex on a line, left to right, with fuel as in `gsubF`. -/
def scanF {G : Type} (m : List Char → Option (G × List Char)) : Nat → List Char → List G
  | _, [] => []
  | 0, _ => []
  | fuel + 1, c :: cs =>
    match m (c :: cs) with
    | some (g, rest) => g :: scanF m fuel rest
    | none => scanF m fuel cs

/-- All matches of a regex on a line. -/
def scanAll {G : Type} (m : List Char → Option (G × List Char)) (s : List Char) : List G :=
  scanF m s.length s

/-- `findWikiLinks` of `wikilinks.ts` on character lists.  The `filePath`
argument of the source is unused by its body and omitted here. -/
def findWikiLinksCore (content : List Char) : List WikiLink :=
  let lines := splitOnChar '\n' content
  (lines.enum).foldl
    (fun links (il : Nat × List Char) =>
      let idx := il.1
      let line := il.2
      let links1 := links ++ (scanAll pHead line).map (fun g =>
        { text := g.2.2.2, target := g.1, «alias» := g.2.2.1, heading := some g.2.1,
          line := idx + 1, context := trimWS line, isHeading := true })
      let links2 := (scanAll pPlain line).foldl
        (fun acc g =>
          if acc.any (fun l => l.text == g.2.2) then acc
          else acc ++ [{ text := g.2.2, target := g.1, «alias» := g.2.1, heading := none,
                         line := idx + 1, context := trimWS line, isHeading := false }])
        links1
      links2 ++ (scanAll pEmbed line).map (fun g =>
        { text := g.2.2, target := g.1, «alias» := g.2.1, heading := none,
          line := idx + 1, context := trimWS line, isHeading := false }))
    []

/-- `findWikiLinks` at `String` granularity. -/
def findWikiLinks (content : String) : List WikiLink := findWikiLinksCore content.data


/-!
### The link index `createWikiLinkMap` of `wikilinks.ts`
-/

/-- `Backlink` of `wikilinks.ts`. -/
structure Backlink where
  sourceFile : List Char
  links : List WikiLink
deriving DecidableEq, Repr

/-- `WikiLinkMap`, as an association list in key-insertion order (JavaScript
objects enumerate string keys in insertion order). -/
abbrev WikiLinkMap := List (List Char × List Backlink)

/-- The body of the `links.forEach` grouping step of `createWikiLinkMap`,
inside one target's backlink list: `find` compares the stored `sourceFile`
(a vault-relative path) with `file` (an absolute path); on no hit a new
entry holding just this link is pushed. -/
def addToBacklinks (file rel : List Char) (link : WikiLink) : List Backlink → List Backlink
  | [] => [{ sourceFile := rel, links := [link] }]
  | bl :: bls =>
    if bl.sourceFile == file then { bl with links := bl.links ++ [link] } :: bls
    else bl :: addToBacklinks file rel link bls

/-- Insert one parsed link under its normalized target name. -/
def addLinkToMap (file rel : List Char) (link : WikiLink) : WikiLinkMap → WikiLinkMap
  | [] => [(basenameMd link.target, addToBacklinks file rel link [])]
  | (t, bls) :: m =>
    if t == basenameMd link.target then (t, addToBacklinks file rel link bls) :: m
    else (t, bls) :: addLinkToMap file rel link m

/-- `createWikiLinkMap` of `wikilinks.ts`.  The vault is the enumeration
result of `getAllMarkdownFiles`: a list of (vault-relative path, content)
pairs, the absolute path being `path.join(vaultPath, rel)`. -/
def createWikiLinkMap (vaultPath : List Char) (files : List (List Char × List Char)) : WikiLinkMap :=
  files.foldl
    (fun m fc =>
      let file := pathJoin vaultPath fc.1
      let rel := pathRelative vaultPath file
      (findWikiLinksCore fc.2).foldl (fun m link => addLinkToMap file rel link m) m)
    []

/-!
### The coordinator `links.ts`

`updateLinksInFile` reads one file, runs `updateWikiLinks`, appends the
moved-from note when applicable, and writes back only on change.
`updateVaultLinks` validates the path, enumerates the vault, classifies the
operation, and loops over every file, catching per-file errors.  External
collaborators (path validation, enumeration, per-file read/write success)
are injected through `FsEnv`; the vault itself is the association list of
(relative path, content).  The forced link-map refresh inside
`updateVaultLinks` only mutates the process-wide cache (modelled separately
with `getOrUpdateLinkMap`) and never the files, so it is not threaded here.
-/

/-- Truthiness of an optional JavaScript string (`undefined`/`null`/empty are
falsy). -/
def truthy : Option (List Char) → Bool
  | none => false
  | some s => !(s == [])

/-- The source normalizes all failures to `McpError`s: validation failures
keep a distinct kind, everything else becomes an internal error (section 7
of the specification). -/
inductive LinkErr where
  | pathViolation
  | internalError
deriving DecidableEq, Repr

instance {e a : Type} [DecidableEq e] [DecidableEq a] : DecidableEq (Except e a) := fun x y =>
  match x, y with
  | .ok v, .ok w =>
    if h : v = w then isTrue (by rw [h]) else isFalse (fun he => by cases he; exact h rfl)
  | .error v, .error w =>
    if h : v = w then isTrue (by rw [h]) else isFalse (fun he => by cases he; exact h rfl)
  | .ok _, .error _ => isFalse (fun he => Except.noConfusion he)
  | .error _, .ok _ => isFalse (fun he => Except.noConfusion he)

/-- Injected collaborator outcomes: `validateVaultPath`, the
`getAllMarkdownFiles` enumeration, and per-file read/write success keyed by
the vault-relative path. -/
structure FsEnv where
  validateOk : Bool
  enumOk : Bool
  readOk : List Char → Bool
  writeOk : List Char → Bool

/-- The moved-from-other-vault informational note appended by
`updateLinksInFile`. -/
def movedFromNote (srcName : List Char) : List Char :=
  ('\n' :: '\n' :: "> [!info] Note: Moved from ".data) ++ srcName

/-- The pure content transformation of `updateLinksInFile`: run
`updateWikiLinks`, then append the moved-from note when
`isMovedFromOtherVault && sourceVaultName && newPath` holds.  Returns the
final content (the caller writes it back iff it differs). -/
def updateLinksInFileContent (content oldPath : List Char)
    (newPath : Option (List Char)) (isMovedToOtherVault isMovedFromOtherVault : Bool)
    (sourceVaultName destVaultName : Option (List Char)) : List Char :=
  let updated := updateWikiLinksCore content oldPath newPath destVaultName isMovedToOtherVault
  if isMovedFromOtherVault && truthy sourceVaultName && truthy newPath then
    updated ++ movedFromNote (sourceVaultName.getD [])
  else updated

/-- Look up a file's content by relative path. -/
def readVault (vault : List (List Char × List Char)) (rel : List Char) : Option (List Char) :=
  match vault.find? (fun fc => fc.1 == rel) with
  | some fc => some fc.2
  | none => none

/-- Overwrite a file's content by relative path. -/
def writeVault (vault : List (List Char × List Char)) (rel content : List Char) :
    List (List Char × List Char) :=
  vault.map (fun fc => if fc.1 == rel then (fc.1, content) else fc)

/-- The `oldPath || ""` / `newPath || null` conversion and the
classification flags of one `updateVaultLinks` call, applied to one file's
content.  The source computes the flags once per call; they depend only on
the call arguments, so recomputing them here is identical. -/
def updateVaultLinksFinal (oldPath newPath src dst : Option (List Char))
    (content : List Char) : List Char :=
  updateLinksInFileContent content (oldPath.getD [])
    (match newPath with
      | some np => if np = [] then none else some np
      | none => none)
    (oldPath.isSome && newPath.isNone && truthy src && truthy dst)
    (oldPath.isNone && newPath.isSome && truthy src && truthy dst) src dst

/-- The per-file step of the `updateVaultLinks` loop: skip the move's own
destination file, catch read/write failures (state unchanged), write back
and count only when the content changed. -/
def updateVaultLinksStep (env : FsEnv) (vaultPath : List Char)
    (oldPath newPath src dst : Option (List Char))
    (acc : List (List Char × List Char) × Nat)
    (rel : List Char) : List (List Char × List Char) × Nat :=
  let file := pathJoin vaultPath rel
  if truthy newPath && (file == pathJoin vaultPath (newPath.getD [])) then acc
  else if !env.readOk rel then acc
  else
    match readVault acc.1 rel with
    | none => acc
    | some content =>
      let final := updateVaultLinksFinal oldPath newPath src dst content
      if content ≠ final then
        if env.writeOk rel then (writeVault acc.1 rel final, acc.2 + 1) else acc
      else acc

/-- `updateVaultLinks` of `links.ts`: fatal path-validation and enumeration
failures, operation classification, then the per-file loop with recoverable
per-file failures.  Returns the final vault contents and the count of files
written. -/
def updateVaultLinks (env : FsEnv) (vaultPath : List Char)
    (oldPath newPath sourceVaultName destVaultName : Option (List Char))
    (vault : List (List Char × List Char)) :
    Except LinkErr (List (List Char × List Char) × Nat) :=
  if !env.validateOk then .error .pathViolation
  else if !env.enumOk then .error .internalError
  else
    .ok ((vault.map Prod.fst).foldl
      (updateVaultLinksStep env vaultPath oldPath newPath sourceVaultName destVaultName)
      (vault, 0))

/-- One entry of the `updates` argument of `batchUpdateLinks`. -/
structure LinkUpdateSpec where
  oldPath : List Char
  newPath : Option (List Char)
  sourceVaultName : Option (List Char)
  destVaultName : Option (List Char)
deriving DecidableEq, Repr

/-- `update.oldPath.split('/').length`, the path-depth key of the batch
sort. -/
def pathDepth (p : List Char) : Nat := (splitOnChar '/' p).length

/-- Stable insertion of one update into an already-sorted run (deepest
first), as produced by `Array.prototype.sort` with the comparator
`depthB - depthA`. -/
def insertByDepth (x : LinkUpdateSpec) : List LinkUpdateSpec → List LinkUpdateSpec
  | [] => [x]
  | y :: ys =>
    if pathDepth y.oldPath < pathDepth x.oldPath then x :: y :: ys
    else y :: insertByDepth x ys

/-- The sorted copy `[...updates].sort((a, b) => depthB - depthA)` of
`batchUpdateLinks`: a stable sort, deepest `oldPath` first. -/
def sortUpdates : List LinkUpdateSpec → List LinkUpdateSpec
  | [] => []
  | x :: xs => insertByDepth x (sortUpdates xs)

/-- Occurrence count summed over a target's backlink entries, as read back
from the cached map inside the `batchUpdateLinks` loop. -/
def linkCountFor (m : WikiLinkMap) (base : List Char) : Nat :=
  match m.find? (fun e => e.1 == base) with
  | some e => (e.2.map (fun bl => bl.links.length)).foldl (· + ·) 0
  | none => 0

/-- `batchUpdateLinks` of `links.ts`: validate, sort deepest-first, then for
each update run `updateVaultLinks` and accumulate the file count and the
occurrence count of the old target read from the link map (rebuilt from the
current vault contents; the TTL branch of the cache is irrelevant inside
one call and elided).  Per-update fatal errors propagate, as in the
source. -/
def batchUpdateLinks (env : FsEnv) (vaultPath : List Char)
    (updates : List LinkUpdateSpec) (vault : List (List Char × List Char)) :
    Except LinkErr (List (List Char × List Char) × Nat × Nat) :=
  if !env.validateOk then .error .pathViolation
  else
    (sortUpdates updates).foldlM
      (fun (acc : List (List Char × List Char) × Nat × Nat) u => do
        let r ← updateVaultLinks env vaultPath (some u.oldPath) u.newPath
          u.sourceVaultName u.destVaultName acc.1
        -- the non-forced cache read returns the map built by the forced
        -- refresh inside `updateVaultLinks`, i.e. from the vault as it was
        -- before this update's rewrites were applied
        let m := createWikiLinkMap vaultPath acc.1
        pure (r.1, acc.2.1 + r.2, acc.2.2 + linkCountFor m (basenameMd u.oldPath)))
      (vault, 0, 0)

/-!
### The process-wide index cache of `links.ts`
-/

/-- The module-level cache state: `cachedLinkMap` and `lastUpdateTime`. -/
structure LinkCache where
  map : Option WikiLinkMap
  lastUpdateTime : Nat

/-- `CACHE_TTL`: five minutes in milliseconds. -/
def CACHE_TTL : Nat := 5 * 60 * 1000

/-- `getOrUpdateLinkMap` of `links.ts`.  `fsFiles` is the external
enumeration-plus-read collaborator (collection root to file list); `now` is
`Date.now()`.  Rebuilds iff the cache is empty, `forceUpdate` is set, or
the TTL elapsed; the collection root is *not* part of the cache key. -/
def getOrUpdateLinkMap (fsFiles : List Char → List (List Char × List Char))
    (now : Nat) (vaultPath : List Char) (forceUpdate : Bool) (st : LinkCache) :
    WikiLinkMap × LinkCache :=
  match st.map with
  | none =>
    let m := createWikiLinkMap vaultPath (fsFiles vaultPath)
    (m, ⟨some m, now⟩)
  | some m =>
    if forceUpdate || decide (CACHE_TTL < now - st.lastUpdateTime) then
      let m2 := createWikiLinkMap vaultPath (fsFiles vaultPath)
      (m2, ⟨some m2, now⟩)
    else (m, st)

/-!
### The integrity checker `validateVaultLinks` of `links.ts`
-/

/-- JavaScript `content.replace(pat, repl)` with a plain (non-regex) search
string: only the first occurrence is replaced. -/
def replaceFirstL (pat repl : List Char) : List Char → List Char
  | [] => []
  | c :: cs =>
    if pat.isPrefixOf (c :: cs) then repl ++ (c :: cs).drop pat.length
    else c :: replaceFirstL pat repl cs

/-- The broken-link warning appended after an occurrence's raw text. -/
def brokenWarning : List Char := ('\n' :: '\n' :: "> [!warning] Broken link: Target file doesn't exist".data)

/-- Running totals of `validateVaultLinks`. -/
structure ValidateTotals where
  brokenLinks : Nat
  repairedLinks : Nat
  affectedFiles : Nat
deriving DecidableEq, Repr

/-- Processing of one backlink entry of a missing target: read the source
file (read failures are caught and skipped), annotate every occurrence,
write back, and count the file once per entry. -/
def validateBacklinkStep (env : FsEnv)
    (acc : List (List Char × List Char) × ValidateTotals) (bl : Backlink) :
    List (List Char × List Char) × ValidateTotals :=
  if !env.readOk bl.sourceFile then acc
  else
    match readVault acc.1 bl.sourceFile with
    | none => acc
    | some content0 =>
      let tot0 := acc.2
      let res := bl.links.foldl
        (fun (p : List Char × Nat × Nat) link =>
          (replaceFirstL link.text (link.text ++ brokenWarning) p.1, p.2.1 + 1, p.2.2 + 1))
        (content0, tot0.brokenLinks, tot0.repairedLinks)
      if bl.links.length > 0 then
        if env.writeOk bl.sourceFile then
          (writeVault acc.1 bl.sourceFile res.1,
           ⟨res.2.1, res.2.2, tot0.affectedFiles + 1⟩)
        else
          -- the write throws after the counters were already incremented
          (acc.1, ⟨res.2.1, res.2.2, tot0.affectedFiles⟩)
      else (acc.1, ⟨res.2.1, res.2.2, tot0.affectedFiles⟩)

/-- `validateVaultLinks` of `links.ts`: rebuild the map, and for every target
with no root-level `<target>.md` document annotate every recorded
occurrence, writing each source entry's file back once per entry. -/
def validateVaultLinks (env : FsEnv) (vaultPath : List Char)
    (vault : List (List Char × List Char)) :
    Except LinkErr (List (List Char × List Char) × ValidateTotals) :=
  if !env.validateOk then .error .pathViolation
  else
    let m := createWikiLinkMap vaultPath vault
    .ok (m.foldl
      (fun acc e =>
        let targetExists := acc.1.any (fun fc =>
          pathJoin vaultPath fc.1 == pathJoin vaultPath (e.1 ++ ".md".data))
        if targetExists then acc
        else e.2.foldl (validateBacklinkStep env) acc)
      (vault, ⟨0, 0, 0⟩))

/-!
### Statement-level definitions

Predicates constraining the symbolic pieces of quantified theorems, the
pointwise per-file outcome of `updateVaultLinks` (used to state that one
file's failure does not disturb the others), and the static entry count
matched by `validateVaultLinks`'s `affectedFiles`.
-/

/-- A text segment that cannot start or continue any of the link regexes:
no open bracket and no bang. -/
def cleanSeg (l : List Char) : Bool := l.all (fun c => !(c == '[') && !(c == '!'))

/-- A `cleanSeg` that additionally stays on one line. -/
def cleanLine (l : List Char) : Bool :=
  l.all (fun c => !(c == '[') && !(c == '!') && !(c == '\n'))

/-- A base-name made of alphanumeric characters (interpolated verbatim into
the source's regexes, so it must be free of regex metacharacters). -/
def okName (l : List Char) : Bool := !(l == []) && l.all Char.isAlphanum

/-- A heading fragment acceptable to every heading-regex variant involved. -/
def okHeading (l : List Char) : Bool :=
  !(l == []) && l.all (fun c =>
    !(c == ']') && !(c == '|') && !(c == '[') && !(c == '!') && !(c == '\n'))

/-- An alias acceptable to every alias group involved (the classes allow
pipes and hashes inside aliases). -/
def okAlias (l : List Char) : Bool :=
  !(l == []) && l.all (fun c =>
    !(c == ']') && !(c == '[') && !(c == '!') && !(c == '\n'))

/-- The content a given file ends up with after `updateVaultLinks`, as a
function of that file alone (what the loop body does to it when no other
file interferes). -/
def updateVaultLinksFileRes (env : FsEnv) (vaultPath : List Char)
    (oldPath newPath src dst : Option (List Char)) (rel content : List Char) : List Char :=
  if truthy newPath && (pathJoin vaultPath rel == pathJoin vaultPath (newPath.getD []))
    then content
  else if !env.readOk rel then content
  else
    let final := updateVaultLinksFinal oldPath newPath src dst content
    if content ≠ final then (if env.writeOk rel then final else content) else content

/-- Whether a given file contributes to the `updatedFiles` count of
`updateVaultLinks`. -/
def updateVaultLinksCounted (env : FsEnv) (vaultPath : List Char)
    (oldPath newPath src dst : Option (List Char)) (rel content : List Char) : Bool :=
  if truthy newPath && (pathJoin vaultPath rel == pathJoin vaultPath (newPath.getD []))
    then false
  else if !env.readOk rel then false
  else
    let final := updateVaultLinksFinal oldPath newPath src dst content
    decide (content ≠ final) && env.writeOk rel

/-- Whether a root-level document `<target>.md` exists for a target key,
judged from a vault state (only the key set matters). -/
def targetDocExists (vaultPath : List Char) (vault : List (List Char × List Char))
    (t : List Char) : Bool :=
  vault.any (fun fc => pathJoin vaultPath fc.1 == pathJoin vaultPath (t ++ ".md".data))

/-- The number of (missing target, backlink entry) pairs that
`validateVaultLinks` annotates and writes: one per `Backlink` record under a
target with no root-level document, whose source file is readable, present,
writable, and holds at least one occurrence. -/
def countAffectedEntries (env : FsEnv) (vaultPath : List Char)
    (vault : List (List Char × List Char)) (m : WikiLinkMap) : Nat :=
  (m.map (fun e =>
    if targetDocExists vaultPath vault e.1 then 0
    else (e.2.filter (fun bl =>
      env.readOk bl.sourceFile && (readVault vault bl.sourceFile).isSome &&
      bl.links.length > 0 && env.writeOk bl.sourceFile)).length)).sum

/-- Whether one backlink entry gets written and counted by
`validateVaultLinks`, judged from the initial vault (the key set never
changes during the pass). -/
def backlinkCounted (env : FsEnv) (vault : List (List Char × List Char))
    (bl : Backlink) : Bool :=
  env.readOk bl.sourceFile && (readVault vault bl.sourceFile).isSome &&
    bl.links.length > 0 && env.writeOk bl.sourceFile

/-- Whether a matcher on success always consumes at least one character
(all of ours do: every regex involved requires a bracket). -/
def ConsumesM {G : Type} (m : List Char → Option (G × List Char)) : Prop :=
  ∀ s g rest, m s = some (g, rest) → rest.length < s.length

/-- No match of a matcher starts inside `x` when `y` follows it. -/
def NoStart {G : Type} (m : List Char → Option (G × List Char)) : List Char → List Char → Prop
  | [], _ => True
  | c :: x, y => m (c :: (x ++ y)) = none ∧ NoStart m x y

/-- The all-collaborators-succeed environment used by the concrete runs. -/
def envAllOk : FsEnv := ⟨true, true, fun _ => true, fun _ => true⟩

/-- The bracket-interior of a plain link: NAME, optional alias, closing
brackets. -/
def bodyPlain (n : List Char) (al : Option (List Char)) : List Char :=
  n ++ aliasFrag al ++ [']', ']']

/-- The bracket-interior of a heading link: NAME, hash, heading, optional
alias, closing brackets. -/
def bodyHead (n hd : List Char) (al : Option (List Char)) : List Char :=
  n ++ '#' :: hd ++ aliasFrag al ++ [']', ']']

/-- A plain wikilink occurrence. -/
def linkPlain (n : List Char) (al : Option (List Char)) : List Char :=
  '[' :: '[' :: bodyPlain n al

/-- A heading wikilink occurrence. -/
def linkHead (n hd : List Char) (al : Option (List Char)) : List Char :=
  '[' :: '[' :: bodyHead n hd al

/-- An embed wikilink occurrence. -/
def linkEmbed (n : List Char) (al : Option (List Char)) : List Char :=
  '!' :: linkPlain n al

/-- Constraint on an optional alias. -/
def okAliasOpt : Option (List Char) → Bool
  | none => true
  | some a => okAlias a

/-!
## Theorems

First a toolkit about the scanners: fuel irrelevance, one-step unfoldings,
and skipping text in which no match can start.
-/

theorem matchLit_self (n r : List Char) : matchLit n (n ++ r) = some r := by
  induction n with
  | nil => simp [matchLit]
  | cons c cs ih => simp [matchLit, ih]

theorem matchLit_le {n s t : List Char} (h : matchLit n s = some t) : t.length ≤ s.length := by
  induction n generalizing s with
  | nil =>
    cases s with
    | nil => cases h; rfl
    | cons d ds => cases h; rfl
  | cons c cs ih =>
    cases s with
    | nil => exact absurd h (by simp [matchLit])
    | cons d ds =>
      unfold matchLit at h
      split at h
      · have := ih h; simp; omega
      · exact absurd h (by simp)

theorem dropWhile_le (p : Char → Bool) (l : List Char) : (l.dropWhile p).length ≤ l.length := by
  induction l with
  | nil => simp [List.dropWhile]
  | cons c cs ih =>
    unfold List.dropWhile
    split
    · simp; omega
    · simp

theorem takeWhile_app {p : Char → Bool} {x : List Char} (d : Char) (r : List Char)
    (hx : ∀ c ∈ x, p c = true) (hd : p d = false) :
    (x ++ d :: r).takeWhile p = x := by
  induction x with
  | nil => simp [List.takeWhile, hd]
  | cons c cs ih =>
    simp only [List.cons_append, List.takeWhile]
    rw [hx c (by simp)]
    simp [ih (fun c hc => hx c (by simp [hc]))]

theorem dropWhile_app {p : Char → Bool} {x : List Char} (d : Char) (r : List Char)
    (hx : ∀ c ∈ x, p c = true) (hd : p d = false) :
    (x ++ d :: r).dropWhile p = d :: r := by
  induction x with
  | nil => simp [List.dropWhile, hd]
  | cons c cs ih =>
    simp only [List.cons_append, List.dropWhile]
    rw [hx c (by simp)]
    simp [ih (fun c hc => hx c (by simp [hc]))]

theorem gsubF_fuel {tr : List Char → Option (List Char × List Char)}
    (hc : ConsumesM tr) :
    ∀ (n : Nat) (s : List Char) (f₁ f₂ : Nat), s.length ≤ n → s.length ≤ f₁ → s.length ≤ f₂ →
      gsubF tr f₁ s = gsubF tr f₂ s := by
  intro n
  induction n with
  | zero =>
    intro s f₁ f₂ hn _ _
    have : s = [] := List.length_eq_zero.mp (Nat.le_zero.mp hn)
    subst this
    cases f₁ <;> cases f₂ <;> rfl
  | succ n ih =>
    intro s f₁ f₂ hn h1 h2
    cases s with
    | nil => cases f₁ <;> cases f₂ <;> rfl
    | cons c cs =>
      simp only [List.length_cons] at hn h1 h2
      obtain ⟨g₁, rfl⟩ : ∃ g, f₁ = g + 1 := ⟨f₁ - 1, by omega⟩
      obtain ⟨g₂, rfl⟩ : ∃ g, f₂ = g + 1 := ⟨f₂ - 1, by omega⟩
      unfold gsubF
      cases hm : tr (c :: cs) with
      | none =>
        simp only []
        rw [ih cs g₁ g₂ (by omega) (by omega) (by omega)]
      | some pr =>
        obtain ⟨repl, rest⟩ := pr
        have hlt : rest.length < cs.length + 1 := hc _ _ _ hm
        simp only []
        rw [ih rest g₁ g₂ (by omega) (by omega) (by omega)]

theorem gsub_cons_none {tr : List Char → Option (List Char × List Char)} {c : Char}
    {cs : List Char} (hm : tr (c :: cs) = none) :
    gsub tr (c :: cs) = c :: gsub tr cs := by
  show gsubF tr (cs.length + 1) (c :: cs) = c :: gsubF tr cs.length cs
  conv_lhs => rw [gsubF]
  rw [hm]

theorem gsub_cons_some {tr : List Char → Option (List Char × List Char)}
    (hc : ConsumesM tr) {s repl rest : List Char} (hm : tr s = some (repl, rest)) :
    gsub tr s = repl ++ gsub tr rest := by
  cases s with
  | nil => exact absurd (hc _ _ _ hm) (by simp)
  | cons c cs =>
    have hlt : rest.length < cs.length + 1 := hc _ _ _ hm
    show gsubF tr (cs.length + 1) (c :: cs) = repl ++ gsubF tr rest.length rest
    conv_lhs => rw [gsubF]
    rw [hm]
    show repl ++ gsubF tr cs.length rest = repl ++ gsubF tr rest.length rest
    rw [gsubF_fuel hc (cs.length + 1) rest cs.length rest.length (by omega) (by omega) (by omega)]

theorem gsub_nil (tr : List Char → Option (List Char × List Char)) : gsub tr [] = [] := rfl

theorem gsub_append {tr : List Char → Option (List Char × List Char)} :
    ∀ {x y : List Char}, NoStart tr x y → gsub tr (x ++ y) = x ++ gsub tr y := by
  intro x
  induction x with
  | nil => intro y _; rfl
  | cons c cs ih =>
    intro y hns
    obtain ⟨h1, h2⟩ := hns
    simp only [List.cons_append]
    rw [gsub_cons_none h1, ih h2]

theorem gsub_id {tr : List Char → Option (List Char × List Char)}
    {s : List Char} (hns : NoStart tr s []) : gsub tr s = s := by
  have := gsub_append hns
  simpa [gsub_nil] using this

theorem noStart_nil {G : Type} (m : List Char → Option (G × List Char)) (y : List Char) :
    NoStart m [] y := trivial

theorem noStart_cons {G : Type} {m : List Char → Option (G × List Char)} {c : Char}
    {x y : List Char} (h1 : m (c :: (x ++ y)) = none) (h2 : NoStart m x y) :
    NoStart m (c :: x) y := ⟨h1, h2⟩

theorem noStart_append {G : Type} {m : List Char → Option (G × List Char)}
    {x y z : List Char} (hx : NoStart m x (y ++ z)) (hy : NoStart m y z) :
    NoStart m (x ++ y) z := by
  induction x with
  | nil => exact hy
  | cons c cs ih =>
    obtain ⟨h1, h2⟩ := hx
    exact ⟨by simpa using h1, ih h2⟩

theorem noStart_of_head {G : Type} {m : List Char → Option (G × List Char)}
    {P : Char → Bool} (hP : ∀ c cs, P c = true → m (c :: cs) = none) :
    ∀ {x : List Char}, (∀ c ∈ x, P c = true) → ∀ (y : List Char), NoStart m x y := by
  intro x
  induction x with
  | nil => intro _ y; trivial
  | cons c cs ih =>
    intro hx y
    exact ⟨hP c _ (hx c (by simp)), ih (fun d hd => hx d (by simp [hd])) y⟩

theorem scanF_fuel {G : Type} {m : List Char → Option (G × List Char)}
    (hc : ConsumesM m) :
    ∀ (n : Nat) (s : List Char) (f₁ f₂ : Nat), s.length ≤ n → s.length ≤ f₁ → s.length ≤ f₂ →
      scanF m f₁ s = scanF m f₂ s := by
  intro n
  induction n with
  | zero =>
    intro s f₁ f₂ hn _ _
    have : s = [] := List.length_eq_zero.mp (Nat.le_zero.mp hn)
    subst this
    cases f₁ <;> cases f₂ <;> rfl
  | succ n ih =>
    intro s f₁ f₂ hn h1 h2
    cases s with
    | nil => cases f₁ <;> cases f₂ <;> rfl
    | cons c cs =>
      simp only [List.length_cons] at hn h1 h2
      obtain ⟨g₁, rfl⟩ : ∃ g, f₁ = g + 1 := ⟨f₁ - 1, by omega⟩
      obtain ⟨g₂, rfl⟩ : ∃ g, f₂ = g + 1 := ⟨f₂ - 1, by omega⟩
      unfold scanF
      cases hm : m (c :: cs) with
      | none =>
        simp only []
        rw [ih cs g₁ g₂ (by omega) (by omega) (by omega)]
      | some pr =>
        obtain ⟨g, rest⟩ := pr
        have hlt : rest.length < cs.length + 1 := hc _ _ _ hm
        simp only []
        rw [ih rest g₁ g₂ (by omega) (by omega) (by omega)]

theorem scanAll_cons_none {G : Type} {m : List Char → Option (G × List Char)} {c : Char}
    {cs : List Char} (hm : m (c :: cs) = none) :
    scanAll m (c :: cs) = scanAll m cs := by
  show scanF m (cs.length + 1) (c :: cs) = scanF m cs.length cs
  conv_lhs => rw [scanF]
  rw [hm]

theorem scanAll_cons_some {G : Type} {m : List Char → Option (G × List Char)}
    (hc : ConsumesM m) {s : List Char} {g : G} {rest : List Char}
    (hm : m s = some (g, rest)) :
    scanAll m s = g :: scanAll m rest := by
  cases s with
  | nil => exact absurd (hc _ _ _ hm) (by simp)
  | cons c cs =>
    have hlt : rest.length < cs.length + 1 := hc _ _ _ hm
    show scanF m (cs.length + 1) (c :: cs) = g :: scanF m rest.length rest
    conv_lhs => rw [scanF]
    rw [hm]
    show g :: scanF m cs.length rest = g :: scanF m rest.length rest
    rw [scanF_fuel hc (cs.length + 1) rest cs.length rest.length (by omega) (by omega) (by omega)]

theorem scanAll_append {G : Type} {m : List Char → Option (G × List Char)} :
    ∀ {x y : List Char}, NoStart m x y → scanAll m (x ++ y) = scanAll m y := by
  intro x
  induction x with
  | nil => intro y _; rfl
  | cons c cs ih =>
    intro y hns
    obtain ⟨h1, h2⟩ := hns
    simp only [List.cons_append]
    rw [scanAll_cons_none h1, ih h2]

theorem scanAll_nil_of_noStart {G : Type} {m : List Char → Option (G × List Char)}
    {s : List Char} (hns : NoStart m s []) : scanAll m s = [] := by
  have := scanAll_append (m := m) hns
  simpa using this


theorem expectChar_len {c : Char} {s r : List Char} (h : expectChar c s = some r) :
    r.length + 1 = s.length := by
  cases s with
  | nil => exact absurd h (by simp [expectChar])
  | cons d ds =>
    by_cases hd : d = c
    · simp [expectChar, hd] at h
      subst h
      simp
    · simp [expectChar, hd] at h

theorem take1While_len {p : Char → Bool} {s : List Char} {tr : List Char × List Char}
    (h : take1While p s = some tr) : tr.2.length ≤ s.length := by
  unfold take1While at h
  by_cases ht : s.takeWhile p = []
  · simp [ht] at h
  · simp [ht] at h
    rw [← h]
    exact dropWhile_le p s

theorem take0While_len {p : Char → Bool} {s : List Char} {tr : List Char × List Char}
    (h : take0While p s = some tr) : tr.2.length ≤ s.length := by
  unfold take0While at h
  cases h
  exact dropWhile_le p s

theorem tailAliasClose_len {s : List Char} {ar : Option (List Char) × List Char}
    (h : tailAliasClose s = some ar) : ar.2.length < s.length := by
  unfold tailAliasClose at h
  split at h
  · rename_i s1 he
    cases h1 : take1While notRB s1 with
    | none => rw [h1] at h; exact absurd h (by simp)
    | some tr =>
      rw [h1] at h
      simp only [Option.some_bind, Option.map_some'] at h
      cases h2 : expectChar ']' tr.2 with
      | none => rw [h2] at h; exact absurd h (by simp)
      | some s3 =>
        rw [h2] at h
        simp only [Option.some_bind, Option.map_some'] at h
        cases h3 : expectChar ']' s3 with
        | none => rw [h3] at h; exact absurd h (by simp)
        | some rest =>
          rw [h3] at h
          cases h
          have e0 := expectChar_len he
          have e1 := take1While_len h1
          have e2 := expectChar_len h2
          have e3 := expectChar_len h3
          show rest.length < s.length
          omega
  · cases h1 : expectChar ']' s with
    | none => rw [h1] at h; exact absurd h (by simp)
    | some s1 =>
      rw [h1] at h
      simp only [Option.some_bind, Option.map_some'] at h
      cases h2 : expectChar ']' s1 with
      | none => rw [h2] at h; exact absurd h (by simp)
      | some rest =>
        rw [h2] at h
        cases h
        have e1 := expectChar_len h1
        have e2 := expectChar_len h2
        show rest.length < s.length
        omega

theorem tailAliasStarClose_len {s : List Char} {ar : Option (List Char) × List Char}
    (h : tailAliasStarClose s = some ar) : ar.2.length < s.length := by
  unfold tailAliasStarClose at h
  split at h
  · rename_i s1 he
    simp only [Option.bind_eq_some, Option.map_eq_some'] at h
    obtain ⟨tr, h1, s3, h2, rest, h3, h4⟩ := h
    have e0 := expectChar_len he
    have e1 := take0While_len h1
    have e2 := expectChar_len h2
    have e3 := expectChar_len h3
    rw [← h4]
    show rest.length < s.length
    omega
  · simp only [Option.bind_eq_some, Option.map_eq_some'] at h
    obtain ⟨s1, h1, rest, h2, h3⟩ := h
    have e1 := expectChar_len h1
    have e2 := expectChar_len h2
    rw [← h3]
    show rest.length < s.length
    omega

theorem rwHead_consumes (n : List Char) : ConsumesM (rwHead n) := by
  intro s g rest h
  unfold rwHead at h
  simp only [Option.bind_eq_some, Option.map_eq_some'] at h
  obtain ⟨s1, h1, s2, h2, s3, h3, s4, h4, hr, h5, ar, h6, h7⟩ := h
  have e1 := expectChar_len h1
  have e2 := expectChar_len h2
  have e3 := matchLit_le h3
  have e4 := expectChar_len h4
  have e5 := take1While_len h5
  have e6 := tailAliasClose_len h6
  injection h7 with ha hb
  subst hb
  omega

theorem rwPlain_consumes (n : List Char) : ConsumesM (rwPlain n) := by
  intro s g rest h
  unfold rwPlain at h
  simp only [Option.bind_eq_some] at h
  obtain ⟨s1, h1, s2, h2, s3, h3, h4⟩ := h
  have e1 := expectChar_len h1
  have e2 := expectChar_len h2
  have e3 := matchLit_le h3
  have e4 := tailAliasClose_len h4
  simp only [] at e4
  omega

theorem rwEmbed_consumes (n : List Char) : ConsumesM (rwEmbed n) := by
  intro s g rest h
  unfold rwEmbed at h
  simp only [Option.bind_eq_some] at h
  obtain ⟨s1, h1, h2⟩ := h
  have e1 := expectChar_len h1
  have e2 := rwPlain_consumes n _ _ _ h2
  omega

theorem delHead_consumes (n : List Char) : ConsumesM (delHead n) := by
  intro s g rest h
  unfold delHead at h
  simp only [Option.bind_eq_some, Option.map_eq_some'] at h
  obtain ⟨s1, h1, s2, h2, s3, h3, s4, h4, hr, h5, s5, h6, rest2, h7, h8⟩ := h
  have e1 := expectChar_len h1
  have e2 := expectChar_len h2
  have e3 := matchLit_le h3
  have e4 := expectChar_len h4
  have e5 := take0While_len h5
  have e6 := expectChar_len h6
  have e7 := expectChar_len h7
  injection h8 with ha hb
  subst hb
  omega

theorem delPlain_consumes (n : List Char) : ConsumesM (delPlain n) := by
  intro s g rest h
  unfold delPlain at h
  simp only [Option.bind_eq_some, Option.map_eq_some'] at h
  obtain ⟨s1, h1, s2, h2, s3, h3, ar, h4, h5⟩ := h
  have e1 := expectChar_len h1
  have e2 := expectChar_len h2
  have e3 := matchLit_le h3
  have e4 := tailAliasStarClose_len h4
  injection h5 with ha hb
  subst hb
  omega

theorem delEmbed_consumes (n : List Char) : ConsumesM (delEmbed n) := by
  intro s g rest h
  unfold delEmbed at h
  simp only [Option.bind_eq_some, Option.map_eq_some'] at h
  obtain ⟨s1, h1, tr, h2, h3⟩ := h
  have e1 := expectChar_len h1
  have e2 := delPlain_consumes n _ _ _ h2
  injection h3 with ha hb
  subst hb
  omega

theorem pHead_consumes : ConsumesM pHead := by
  intro s g rest h
  unfold pHead at h
  simp only [Option.bind_eq_some, Option.map_eq_some'] at h
  obtain ⟨s1, h1, s2, h2, tg, h3, s3, h4, hd, h5, ar, h6, h7⟩ := h
  have e1 := expectChar_len h1
  have e2 := expectChar_len h2
  have e3 := take1While_len h3
  have e4 := expectChar_len h4
  have e5 := take1While_len h5
  have e6 := tailAliasClose_len h6
  injection h7 with ha hb
  subst hb
  omega

theorem pPlain_consumes : ConsumesM pPlain := by
  intro s g rest h
  unfold pPlain at h
  simp only [Option.bind_eq_some, Option.map_eq_some'] at h
  obtain ⟨s1, h1, s2, h2, tg, h3, ar, h4, h5⟩ := h
  have e1 := expectChar_len h1
  have e2 := expectChar_len h2
  have e3 := take1While_len h3
  have e4 := tailAliasClose_len h4
  injection h5 with ha hb
  subst hb
  omega

theorem pEmbed_consumes : ConsumesM pEmbed := by
  intro s g rest h
  unfold pEmbed at h
  simp only [Option.bind_eq_some, Option.map_eq_some'] at h
  obtain ⟨s1, h1, gr, h2, h3⟩ := h
  have e1 := expectChar_len h1
  have e2 := pPlain_consumes _ _ _ h2
  injection h3 with ha hb
  subst hb
  omega

theorem alnum_not_special {c : Char} (h : c.isAlphanum = true) :
    c ≠ '[' ∧ c ≠ ']' ∧ c ≠ '|' ∧ c ≠ '#' ∧ c ≠ '!' ∧ c ≠ '/' ∧ c ≠ '.' ∧ c ≠ '~' ∧ c ≠ '\n' := by
  refine ⟨?_, ?_, ?_, ?_, ?_, ?_, ?_, ?_, ?_⟩ <;>
    (intro he; subst he; exact absurd h (by decide))

theorem takeWhile_all {p : Char → Bool} {l : List Char} (h : ∀ c ∈ l, p c = true) :
    l.takeWhile p = l := by
  induction l with
  | nil => rfl
  | cons c cs ih =>
    simp only [List.takeWhile]
    rw [h c (by simp)]
    simp [ih (fun d hd => h d (by simp [hd]))]

theorem okName_spec {l : List Char} (h : okName l = true) :
    l ≠ [] ∧ ∀ c ∈ l, c.isAlphanum = true := by
  unfold okName at h
  simp only [Bool.and_eq_true, Bool.not_eq_true', beq_eq_false_iff_ne, List.all_eq_true] at h
  exact ⟨h.1, fun c hc => h.2 c hc⟩

theorem basenameMd_of_name {n : List Char} (h : okName n = true) : basenameMd n = n := by
  obtain ⟨hne, hall⟩ := okName_spec h
  have hrev : ∀ c ∈ n.reverse, c.isAlphanum = true := by
    intro c hc; exact hall c (List.mem_reverse.mp hc)
  have hbase : baseNamePart n = n := by
    unfold baseNamePart
    rw [takeWhile_all (by
      intro c hc
      have := (alnum_not_special (hrev c hc)).2.2.2.2.2.1
      simp [this])]
    simp
  unfold basenameMd
  rw [hbase]
  unfold stripMd
  split
  · rename_i c rest heq
    have : '.' ∈ n.reverse := by rw [heq]; simp
    have := (alnum_not_special (hrev '.' this)).2.2.2.2.2.2.1
    simp at this
  · rfl

theorem expectChar_pos (c : Char) (r : List Char) : expectChar c (c :: r) = some r := by
  simp [expectChar]

theorem expectChar_neg {c d : Char} (h : d ≠ c) (r : List Char) :
    expectChar c (d :: r) = none := by
  simp [expectChar, h]

theorem take1While_app {p : Char → Bool} {x : List Char} {d : Char} (r : List Char)
    (hx0 : x ≠ []) (hx : ∀ c ∈ x, p c = true) (hd : p d = false) :
    take1While p (x ++ d :: r) = some (x, d :: r) := by
  unfold take1While
  rw [takeWhile_app d r hx hd, dropWhile_app d r hx hd]
  simp [hx0]

theorem take0While_app {p : Char → Bool} {x : List Char} {d : Char} (r : List Char)
    (hx : ∀ c ∈ x, p c = true) (hd : p d = false) :
    take0While p (x ++ d :: r) = some (x, d :: r) := by
  unfold take0While
  rw [takeWhile_app d r hx hd, dropWhile_app d r hx hd]

theorem tailAliasClose_noAlias (r : List Char) :
    tailAliasClose (']' :: ']' :: r) = some (none, r) := by
  have h0 : expectChar '|' (']' :: ']' :: r) = none := expectChar_neg (by decide) _
  simp [tailAliasClose, h0, expectChar_pos]

theorem tailAliasClose_alias {a : List Char} (r : List Char) (ha0 : a ≠ [])
    (ha : ∀ c ∈ a, c ≠ ']') :
    tailAliasClose ('|' :: (a ++ ']' :: ']' :: r)) = some (some a, r) := by
  unfold tailAliasClose
  have h1 : take1While notRB (a ++ ']' :: (']' :: r)) = some (a, ']' :: ']' :: r) := by
    apply take1While_app _ ha0
    · intro c hc; simp [notRB, ha c hc]
    · simp [notRB]
  simp [expectChar_pos, h1]

theorem tailAliasClose_none {d : Char} {r : List Char} (h1 : d ≠ '|') (h2 : d ≠ ']') :
    tailAliasClose (d :: r) = none := by
  simp [tailAliasClose, expectChar_neg h1, expectChar_neg h2]

theorem tailAliasStarClose_noAlias (r : List Char) :
    tailAliasStarClose (']' :: ']' :: r) = some (none, r) := by
  have h0 : expectChar '|' (']' :: ']' :: r) = none := expectChar_neg (by decide) _
  simp [tailAliasStarClose, h0, expectChar_pos]

theorem tailAliasStarClose_alias {a : List Char} (r : List Char)
    (ha : ∀ c ∈ a, c ≠ ']') :
    tailAliasStarClose ('|' :: (a ++ ']' :: ']' :: r)) = some (some a, r) := by
  unfold tailAliasStarClose
  have h1 : take0While notRB (a ++ ']' :: (']' :: r)) = some (a, ']' :: ']' :: r) := by
    apply take0While_app
    · intro c hc; simp [notRB, ha c hc]
    · simp [notRB]
  simp [expectChar_pos, h1]

theorem tailAliasStarClose_none {d : Char} {r : List Char} (h1 : d ≠ '|') (h2 : d ≠ ']') :
    tailAliasStarClose (d :: r) = none := by
  simp [tailAliasStarClose, expectChar_neg h1, expectChar_neg h2]

theorem rwHead_none1 {c : Char} (h : c ≠ '[') (n cs : List Char) :
    rwHead n (c :: cs) = none := by
  simp [rwHead, expectChar_neg h]

theorem rwPlain_none1 {c : Char} (h : c ≠ '[') (n cs : List Char) :
    rwPlain n (c :: cs) = none := by
  simp [rwPlain, expectChar_neg h]

theorem delHead_none1 {c : Char} (h : c ≠ '[') (n cs : List Char) :
    delHead n (c :: cs) = none := by
  simp [delHead, expectChar_neg h]

theorem delPlain_none1 {c : Char} (h : c ≠ '[') (n cs : List Char) :
    delPlain n (c :: cs) = none := by
  simp [delPlain, expectChar_neg h]

theorem pHead_none1 {c : Char} (h : c ≠ '[') (cs : List Char) :
    pHead (c :: cs) = none := by
  simp [pHead, expectChar_neg h]

theorem pPlain_none1 {c : Char} (h : c ≠ '[') (cs : List Char) :
    pPlain (c :: cs) = none := by
  simp [pPlain, expectChar_neg h]

theorem rwEmbed_none1 {c : Char} (h : c ≠ '!') (n cs : List Char) :
    rwEmbed n (c :: cs) = none := by
  simp [rwEmbed, expectChar_neg h]

theorem delEmbed_none1 {c : Char} (h : c ≠ '!') (n cs : List Char) :
    delEmbed n (c :: cs) = none := by
  simp [delEmbed, expectChar_neg h]

theorem pEmbed_none1 {c : Char} (h : c ≠ '!') (cs : List Char) :
    pEmbed (c :: cs) = none := by
  simp [pEmbed, expectChar_neg h]

theorem rwHead_none2 {d : Char} (h : d ≠ '[') (n : List Char) (c : Char) (cs : List Char) :
    rwHead n (c :: d :: cs) = none := by
  by_cases hc : c = '['
  · subst hc; simp [rwHead, expectChar_pos, expectChar_neg h]
  · exact rwHead_none1 hc n _

theorem rwPlain_none2 {d : Char} (h : d ≠ '[') (n : List Char) (c : Char) (cs : List Char) :
    rwPlain n (c :: d :: cs) = none := by
  by_cases hc : c = '['
  · subst hc; simp [rwPlain, expectChar_pos, expectChar_neg h]
  · exact rwPlain_none1 hc n _

theorem delHead_none2 {d : Char} (h : d ≠ '[') (n : List Char) (c : Char) (cs : List Char) :
    delHead n (c :: d :: cs) = none := by
  by_cases hc : c = '['
  · subst hc; simp [delHead, expectChar_pos, expectChar_neg h]
  · exact delHead_none1 hc n _

theorem delPlain_none2 {d : Char} (h : d ≠ '[') (n : List Char) (c : Char) (cs : List Char) :
    delPlain n (c :: d :: cs) = none := by
  by_cases hc : c = '['
  · subst hc; simp [delPlain, expectChar_pos, expectChar_neg h]
  · exact delPlain_none1 hc n _

theorem pHead_none2 {d : Char} (h : d ≠ '[') (c : Char) (cs : List Char) :
    pHead (c :: d :: cs) = none := by
  by_cases hc : c = '['
  · subst hc; simp [pHead, expectChar_pos, expectChar_neg h]
  · exact pHead_none1 hc _

theorem pPlain_none2 {d : Char} (h : d ≠ '[') (c : Char) (cs : List Char) :
    pPlain (c :: d :: cs) = none := by
  by_cases hc : c = '['
  · subst hc; simp [pPlain, expectChar_pos, expectChar_neg h]
  · exact pPlain_none1 hc _

theorem rwEmbed_none_of {n r : List Char} (h : rwPlain n r = none) (c : Char) :
    rwEmbed n (c :: r) = none := by
  by_cases hc : c = '!'
  · subst hc; simp [rwEmbed, expectChar_pos, h]
  · exact rwEmbed_none1 hc n _

theorem delEmbed_none_of {n r : List Char} (h : delPlain n r = none) (c : Char) :
    delEmbed n (c :: r) = none := by
  by_cases hc : c = '!'
  · subst hc; simp [delEmbed, expectChar_pos, h]
  · exact delEmbed_none1 hc n _

theorem pEmbed_none_of {r : List Char} (h : pPlain r = none) (c : Char) :
    pEmbed (c :: r) = none := by
  by_cases hc : c = '!'
  · subst hc; simp [pEmbed, expectChar_pos, h]
  · exact pEmbed_none1 hc _

theorem okHeading_spec {l : List Char} (h : okHeading l = true) :
    l ≠ [] ∧ ∀ c ∈ l, c ≠ ']' ∧ c ≠ '|' ∧ c ≠ '[' ∧ c ≠ '!' ∧ c ≠ '\n' := by
  unfold okHeading at h
  simp only [Bool.and_eq_true, Bool.not_eq_true', beq_eq_false_iff_ne, List.all_eq_true] at h
  refine ⟨h.1, fun c hc => ?_⟩
  have := h.2 c hc
  simp only [Bool.and_eq_true, Bool.not_eq_true', beq_eq_false_iff_ne] at this
  exact ⟨this.1.1.1.1, this.1.1.1.2, this.1.1.2, this.1.2, this.2⟩

theorem okAlias_spec {l : List Char} (h : okAlias l = true) :
    l ≠ [] ∧ ∀ c ∈ l, c ≠ ']' ∧ c ≠ '[' ∧ c ≠ '!' ∧ c ≠ '\n' := by
  unfold okAlias at h
  simp only [Bool.and_eq_true, Bool.not_eq_true', beq_eq_false_iff_ne, List.all_eq_true] at h
  refine ⟨h.1, fun c hc => ?_⟩
  have := h.2 c hc
  simp only [Bool.and_eq_true, Bool.not_eq_true', beq_eq_false_iff_ne] at this
  exact ⟨this.1.1.1, this.1.1.2, this.1.2, this.2⟩

theorem matchLit_alt {n : List Char} (hn : ∀ c ∈ n, c.isAlphanum = true) :
    ∀ {m : List Char}, (∀ c ∈ m, c.isAlphanum = true) → n ≠ m →
    ∀ {r : List Char}, (∀ c, r.head? = some c → c.isAlphanum = false) →
    matchLit n (m ++ r) = none ∨
    ∃ k kc, k.head? = some kc ∧ kc.isAlphanum = true ∧ matchLit n (m ++ r) = some (k ++ r) := by
  induction n with
  | nil =>
    intro m hm hne r hr
    cases m with
    | nil => exact absurd rfl hne
    | cons d m' =>
      right
      exact ⟨d :: m', d, rfl, hm d (by simp), by simp [matchLit]⟩
  | cons c n' ih =>
    intro m hm hne r hr
    cases m with
    | nil =>
      left
      cases r with
      | nil => simp [matchLit]
      | cons d r' =>
        have hca : c.isAlphanum = true := hn c (by simp)
        have hda : d.isAlphanum = false := hr d rfl
        have : c ≠ d := fun he => by rw [he] at hca; rw [hca] at hda; exact Bool.noConfusion hda
        simp [matchLit, this]
    | cons d m' =>
      by_cases hcd : c = d
      · subst hcd
        have hne' : n' ≠ m' := fun he => hne (by rw [he])
        have := ih (fun x hx => hn x (by simp [hx])) (fun x hx => hm x (by simp [hx])) hne' hr
        simpa [matchLit] using this
      · left
        simp [matchLit, hcd]

theorem notRBPipe_of_heading {hd : List Char} (hh : okHeading hd = true) :
    ∀ c ∈ hd, notRBPipe c = true := by
  intro c hc
  obtain ⟨-, hall⟩ := okHeading_spec hh
  obtain ⟨h1, h2, -, -, -⟩ := hall c hc
  simp [notRBPipe, h1, h2]

theorem notRB_of_alias {a : List Char} (ha : okAlias a = true) :
    ∀ c ∈ a, notRB c = true := by
  intro c hc
  obtain ⟨-, hall⟩ := okAlias_spec ha
  obtain ⟨h1, -, -, -⟩ := hall c hc
  simp [notRB, h1]

theorem rwHead_match_n {n hd : List Char} (hh : okHeading hd = true)
    (s : List Char) :
    rwHead n ('[' :: '[' :: (n ++ '#' :: (hd ++ ']' :: ']' :: s))) = some (('#' :: hd, none), s) := by
  have ht : take1While notRBPipe (hd ++ ']' :: ']' :: s) = some (hd, ']' :: ']' :: s) :=
    take1While_app _ (okHeading_spec hh).1 (notRBPipe_of_heading hh) (by simp [notRBPipe])
  simp [rwHead, expectChar_pos, matchLit_self, ht, tailAliasClose_noAlias]

theorem rwHead_match_a {n hd a : List Char} (hh : okHeading hd = true)
    (ha : okAlias a = true) (s : List Char) :
    rwHead n ('[' :: '[' :: (n ++ '#' :: (hd ++ '|' :: (a ++ ']' :: ']' :: s)))) =
      some (('#' :: hd, some a), s) := by
  have ht : take1While notRBPipe (hd ++ '|' :: (a ++ ']' :: ']' :: s)) =
      some (hd, '|' :: (a ++ ']' :: ']' :: s)) :=
    take1While_app _ (okHeading_spec hh).1 (notRBPipe_of_heading hh) (by simp [notRBPipe])
  have hta : tailAliasClose ('|' :: (a ++ ']' :: ']' :: s)) = some (some a, s) :=
    tailAliasClose_alias _ (okAlias_spec ha).1 (fun c hc => ((okAlias_spec ha).2 c hc).1)
  simp [rwHead, expectChar_pos, matchLit_self, ht, hta]

theorem rwPlain_match_n {n : List Char} (s : List Char) :
    rwPlain n ('[' :: '[' :: (n ++ ']' :: ']' :: s)) = some (none, s) := by
  simp [rwPlain, expectChar_pos, matchLit_self, tailAliasClose_noAlias]

theorem rwPlain_match_a {n a : List Char} (ha : okAlias a = true) (s : List Char) :
    rwPlain n ('[' :: '[' :: (n ++ '|' :: (a ++ ']' :: ']' :: s))) = some (some a, s) := by
  have hta : tailAliasClose ('|' :: (a ++ ']' :: ']' :: s)) = some (some a, s) :=
    tailAliasClose_alias _ (okAlias_spec ha).1 (fun c hc => ((okAlias_spec ha).2 c hc).1)
  simp [rwPlain, expectChar_pos, matchLit_self, hta]

theorem rwEmbed_match_of {n r : List Char} {g : Option (List Char)} {rest : List Char}
    (h : rwPlain n r = some (g, rest)) :
    rwEmbed n ('!' :: r) = some (g, rest) := by
  simp [rwEmbed, expectChar_pos, h]

theorem delHead_match {n hd : List Char} (hh : ∀ c ∈ hd, c ≠ ']') (s : List Char) :
    delHead n ('[' :: '[' :: (n ++ '#' :: (hd ++ ']' :: ']' :: s))) =
      some ('[' :: '[' :: (n ++ '#' :: hd ++ [']', ']']), s) := by
  have ht : take0While notRB (hd ++ ']' :: ']' :: s) = some (hd, ']' :: ']' :: s) :=
    take0While_app _ (fun c hc => by simp [notRB, hh c hc]) (by simp [notRB])
  simp [delHead, expectChar_pos, matchLit_self, ht]

theorem delPlain_match_n {n : List Char} (s : List Char) :
    delPlain n ('[' :: '[' :: (n ++ ']' :: ']' :: s)) =
      some ('[' :: '[' :: (n ++ [']', ']']), s) := by
  simp [delPlain, expectChar_pos, matchLit_self, tailAliasStarClose_noAlias, aliasFrag]

theorem delPlain_match_a {n a : List Char} (ha : ∀ c ∈ a, c ≠ ']') (s : List Char) :
    delPlain n ('[' :: '[' :: (n ++ '|' :: (a ++ ']' :: ']' :: s))) =
      some ('[' :: '[' :: (n ++ '|' :: a ++ [']', ']']), s) := by
  have hta : tailAliasStarClose ('|' :: (a ++ ']' :: ']' :: s)) = some (some a, s) :=
    tailAliasStarClose_alias _ ha
  simp [delPlain, expectChar_pos, matchLit_self, hta, aliasFrag]

theorem delEmbed_match_of {n r t rest : List Char} (h : delPlain n r = some (t, rest)) :
    delEmbed n ('!' :: r) = some ('!' :: t, rest) := by
  simp [delEmbed, expectChar_pos, h]

theorem rwHead_noHash {n : List Char} {d : Char} (hd : d ≠ '#') (r : List Char) :
    rwHead n ('[' :: '[' :: (n ++ d :: r)) = none := by
  simp [rwHead, expectChar_pos, matchLit_self, expectChar_neg hd]

theorem rwPlain_badTail {n : List Char} {d : Char} (h1 : d ≠ '|') (h2 : d ≠ ']') (r : List Char) :
    rwPlain n ('[' :: '[' :: (n ++ d :: r)) = none := by
  simp [rwPlain, expectChar_pos, matchLit_self, tailAliasClose_none h1 h2]

theorem delHead_noHash {n : List Char} {d : Char} (hd : d ≠ '#') (r : List Char) :
    delHead n ('[' :: '[' :: (n ++ d :: r)) = none := by
  simp [delHead, expectChar_pos, matchLit_self, expectChar_neg hd]

theorem delPlain_badTail {n : List Char} {d : Char} (h1 : d ≠ '|') (h2 : d ≠ ']') (r : List Char) :
    delPlain n ('[' :: '[' :: (n ++ d :: r)) = none := by
  simp [delPlain, expectChar_pos, matchLit_self, tailAliasStarClose_none h1 h2]

theorem headNotAlnum_cons {d : Char} (hd : d.isAlphanum = false) (r : List Char) :
    ∀ c, (d :: r).head? = some c → c.isAlphanum = false := by
  intro c hc
  simp at hc
  subst hc
  exact hd

theorem rwHead_ne {n m r : List Char} (hn : okName n = true) (hm : okName m = true)
    (hne : n ≠ m) (hr : ∀ c, r.head? = some c → c.isAlphanum = false) :
    rwHead n ('[' :: '[' :: (m ++ r)) = none := by
  rcases matchLit_alt (okName_spec hn).2 (okName_spec hm).2 hne hr with h | ⟨k, kc, hk, hkc, h⟩
  · simp [rwHead, expectChar_pos, h]
  · cases k with
    | nil => simp at hk
    | cons c k' =>
      simp at hk
      subst hk
      have : c ≠ '#' := (alnum_not_special hkc).2.2.2.1
      simp [rwHead, expectChar_pos, h, expectChar_neg this]

theorem rwPlain_ne {n m r : List Char} (hn : okName n = true) (hm : okName m = true)
    (hne : n ≠ m) (hr : ∀ c, r.head? = some c → c.isAlphanum = false) :
    rwPlain n ('[' :: '[' :: (m ++ r)) = none := by
  rcases matchLit_alt (okName_spec hn).2 (okName_spec hm).2 hne hr with h | ⟨k, kc, hk, hkc, h⟩
  · simp [rwPlain, expectChar_pos, h]
  · cases k with
    | nil => simp at hk
    | cons c k' =>
      simp at hk
      subst hk
      have h1 : c ≠ '|' := (alnum_not_special hkc).2.2.1
      have h2 : c ≠ ']' := (alnum_not_special hkc).2.1
      simp [rwPlain, expectChar_pos, h, tailAliasClose_none h1 h2]

theorem delHead_ne {n m r : List Char} (hn : okName n = true) (hm : okName m = true)
    (hne : n ≠ m) (hr : ∀ c, r.head? = some c → c.isAlphanum = false) :
    delHead n ('[' :: '[' :: (m ++ r)) = none := by
  rcases matchLit_alt (okName_spec hn).2 (okName_spec hm).2 hne hr with h | ⟨k, kc, hk, hkc, h⟩
  · simp [delHead, expectChar_pos, h]
  · cases k with
    | nil => simp at hk
    | cons c k' =>
      simp at hk
      subst hk
      have : c ≠ '#' := (alnum_not_special hkc).2.2.2.1
      simp [delHead, expectChar_pos, h, expectChar_neg this]

theorem delPlain_ne {n m r : List Char} (hn : okName n = true) (hm : okName m = true)
    (hne : n ≠ m) (hr : ∀ c, r.head? = some c → c.isAlphanum = false) :
    delPlain n ('[' :: '[' :: (m ++ r)) = none := by
  rcases matchLit_alt (okName_spec hn).2 (okName_spec hm).2 hne hr with h | ⟨k, kc, hk, hkc, h⟩
  · simp [delPlain, expectChar_pos, h]
  · cases k with
    | nil => simp at hk
    | cons c k' =>
      simp at hk
      subst hk
      have h1 : c ≠ '|' := (alnum_not_special hkc).2.2.1
      have h2 : c ≠ ']' := (alnum_not_special hkc).2.1
      simp [delPlain, expectChar_pos, h, tailAliasStarClose_none h1 h2]

theorem noStart_of_headProp {G : Type} {m : List Char → Option (G × List Char)}
    {P : Char → Prop} (hP : ∀ c cs, P c → m (c :: cs) = none) :
    ∀ {x : List Char}, (∀ c ∈ x, P c) → ∀ (y : List Char), NoStart m x y := by
  intro x
  induction x with
  | nil => intro _ y; trivial
  | cons c cs ih =>
    intro hx y
    exact ⟨hP c _ (hx c (by simp)), ih (fun d hd => hx d (by simp [hd])) y⟩

theorem noStart_all {G : Type} {m : List Char → Option (G × List Char)}
    (h1 : ∀ c cs, c ≠ '!' → m (c :: cs) = none)
    {t : List Char} (ht : ∀ c ∈ t, c ≠ '!') (y : List Char) : NoStart m t y :=
  noStart_of_headProp h1 ht y

theorem noStart_full {G : Type} {m : List Char → Option (G × List Char)}
    (h1 : ∀ c cs, c ≠ '[' → m (c :: cs) = none)
    {p body s : List Char}
    (hp : ∀ c ∈ p, c ≠ '[') (hs : ∀ c ∈ s, c ≠ '[') (hbody : ∀ c ∈ body, c ≠ '[')
    (hb0 : m ('[' :: '[' :: (body ++ s)) = none)
    (hb1 : m ('[' :: (body ++ s)) = none) :
    NoStart m (p ++ ('[' :: '[' :: body) ++ s) [] := by
  have hlink : NoStart m ('[' :: '[' :: body) s :=
    noStart_cons (by simpa using hb0)
      (noStart_cons (by simpa using hb1)
        (noStart_of_headProp h1 hbody s))
  have hss : NoStart m s ([] : List Char) :=
    noStart_of_headProp h1 hs []
  have h2 : NoStart m (('[' :: '[' :: body) ++ s) [] := by
    apply noStart_append _ hss
    simpa using hlink
  rw [List.append_assoc]
  apply noStart_append _ h2
  apply noStart_of_headProp h1 hp

theorem noStart_full_bang {G : Type} {m : List Char → Option (G × List Char)}
    (h1 : ∀ c cs, c ≠ '!' → m (c :: cs) = none)
    {p body s : List Char}
    (hp : ∀ c ∈ p, c ≠ '!') (hs : ∀ c ∈ s, c ≠ '!') (hbody : ∀ c ∈ body, c ≠ '!')
    (hb0 : m ('!' :: (body ++ s)) = none) :
    NoStart m (p ++ ('!' :: body) ++ s) [] := by
  have hlink : NoStart m ('!' :: body) s :=
    noStart_cons (by simpa using hb0) (noStart_of_headProp h1 hbody s)
  have hss : NoStart m s ([] : List Char) :=
    noStart_of_headProp h1 hs []
  have h2 : NoStart m (('!' :: body) ++ s) [] := by
    apply noStart_append _ hss
    simpa using hlink
  rw [List.append_assoc]
  apply noStart_append _ h2
  apply noStart_of_headProp h1 hp

theorem gsub_single {tr : List Char → Option (List Char × List Char)}
    (hc : ConsumesM tr) {p L s repl : List Char}
    (hp : NoStart tr p (L ++ s)) (hm : tr (L ++ s) = some (repl, s))
    (hs : NoStart tr s []) :
    gsub tr (p ++ L ++ s) = p ++ repl ++ s := by
  rw [List.append_assoc, gsub_append hp, gsub_cons_some hc hm, gsub_id hs]
  simp

theorem withRepl_none {G : Type} {m : List Char → Option (G × List Char)}
    {f : G → List Char} {s : List Char} (h : m s = none) : withRepl m f s = none := by
  simp [withRepl, h]

theorem withRepl_some {G : Type} {m : List Char → Option (G × List Char)}
    {f : G → List Char} {s : List Char} {g : G} {rest : List Char}
    (h : m s = some (g, rest)) : withRepl m f s = some (f g, rest) := by
  simp [withRepl, h]

theorem withRepl_consumes {G : Type} {m : List Char → Option (G × List Char)}
    {f : G → List Char} (h : ConsumesM m) : ConsumesM (withRepl m f) := by
  intro s g rest hw
  unfold withRepl at hw
  cases hm : m s with
  | none => rw [hm] at hw; exact absurd hw (by simp)
  | some pr =>
    rw [hm] at hw
    cases hw
    exact h _ _ _ hm

theorem cleanSeg_spec {l : List Char} (h : cleanSeg l = true) :
    ∀ c ∈ l, c ≠ '[' ∧ c ≠ '!' := by
  unfold cleanSeg at h
  simp only [List.all_eq_true] at h
  intro c hc
  have := h c hc
  simp only [Bool.and_eq_true, Bool.not_eq_true', beq_eq_false_iff_ne] at this
  exact this

theorem okAliasOpt_spec {al : Option (List Char)} (h : okAliasOpt al = true) :
    ∀ a, al = some a → ∀ c ∈ a, c ≠ ']' ∧ c ≠ '[' ∧ c ≠ '!' ∧ c ≠ '\n' := by
  intro a hal c hc
  subst hal
  exact (okAlias_spec h).2 c hc

theorem aliasFrag_clean {al : Option (List Char)} (h : okAliasOpt al = true) :
    ∀ c ∈ aliasFrag al, c ≠ '[' ∧ c ≠ '!' ∧ c ≠ ']' := by
  cases al with
  | none => intro c hc; exact absurd hc (by simp [aliasFrag])
  | some a =>
    intro c hc
    rw [show aliasFrag (some a) = '|' :: a from rfl] at hc
    rcases List.mem_cons.mp hc with rfl | hc
    · exact ⟨by decide, by decide, by decide⟩
    · obtain ⟨h1, h2, h3, -⟩ := (okAlias_spec h).2 c hc
      exact ⟨h2, h3, h1⟩

theorem bodyPlain_clean {n : List Char} {al : Option (List Char)}
    (hn : okName n = true) (hal : okAliasOpt al = true) :
    ∀ c ∈ bodyPlain n al, c ≠ '[' ∧ c ≠ '!' := by
  intro c hc
  unfold bodyPlain at hc
  simp only [List.mem_append, List.mem_cons, List.not_mem_nil, or_false] at hc
  rcases hc with (hc | hc) | (rfl | rfl)
  · have := alnum_not_special ((okName_spec hn).2 c hc)
    exact ⟨this.1, this.2.2.2.2.1⟩
  · have := aliasFrag_clean hal c hc
    exact ⟨this.1, this.2.1⟩
  · exact ⟨by decide, by decide⟩
  · exact ⟨by decide, by decide⟩

theorem bodyHead_clean {n hd : List Char} {al : Option (List Char)}
    (hn : okName n = true) (hh : okHeading hd = true) (hal : okAliasOpt al = true) :
    ∀ c ∈ bodyHead n hd al, c ≠ '[' ∧ c ≠ '!' := by
  intro c hc
  unfold bodyHead at hc
  simp only [List.mem_append, List.mem_cons, List.not_mem_nil, or_false] at hc
  rcases hc with ((hc | (rfl | hc)) | hc) | (rfl | rfl)
  · have := alnum_not_special ((okName_spec hn).2 c hc)
    exact ⟨this.1, this.2.2.2.2.1⟩
  · exact ⟨by decide, by decide⟩
  · obtain ⟨-, -, h3, h4, -⟩ := (okHeading_spec hh).2 c hc
    exact ⟨h3, h4⟩
  · have := aliasFrag_clean hal c hc
    exact ⟨this.1, this.2.1⟩
  · exact ⟨by decide, by decide⟩
  · exact ⟨by decide, by decide⟩

theorem gsub_skip_bracket_link {tr : List Char → Option (List Char × List Char)}
    {p body s : List Char}
    (h1 : ∀ (c : Char) (cs : List Char), c ≠ '[' → tr (c :: cs) = none)
    (h2 : ∀ (c d : Char) (cs : List Char), d ≠ '[' → tr (c :: d :: cs) = none)
    (hp : ∀ c ∈ p, c ≠ '[') (hs : ∀ c ∈ s, c ≠ '[') (hbody : ∀ c ∈ body, c ≠ '[')
    (hbne : body ≠ [])
    (hb0 : tr ('[' :: '[' :: (body ++ s)) = none) :
    gsub tr (p ++ ('[' :: '[' :: body) ++ s) = p ++ ('[' :: '[' :: body) ++ s := by
  apply gsub_id
  apply noStart_full h1 hp hs hbody hb0
  cases body with
  | nil => exact absurd rfl hbne
  | cons b0 bt => exact h2 '[' b0 _ (hbody b0 (by simp))

theorem gsub_skip_nobang {tr : List Char → Option (List Char × List Char)}
    (h1 : ∀ (c : Char) (cs : List Char), c ≠ '!' → tr (c :: cs) = none)
    {t : List Char} (ht : ∀ c ∈ t, c ≠ '!') : gsub tr t = t :=
  gsub_id (noStart_of_headProp h1 ht [])

theorem gsub_skip_bang_link {tr : List Char → Option (List Char × List Char)}
    (h1 : ∀ (c : Char) (cs : List Char), c ≠ '!' → tr (c :: cs) = none)
    {p body s : List Char}
    (hp : ∀ c ∈ p, c ≠ '!') (hs : ∀ c ∈ s, c ≠ '!') (hbody : ∀ c ∈ body, c ≠ '!')
    (hb0 : tr ('!' :: (body ++ s)) = none) :
    gsub tr (p ++ ('!' :: body) ++ s) = p ++ ('!' :: body) ++ s :=
  gsub_id (noStart_full_bang h1 hp hs hbody hb0)

theorem gsub_match_link {tr : List Char → Option (List Char × List Char)}
    (hc : ConsumesM tr)
    (h1 : ∀ (c : Char) (cs : List Char), c ≠ '[' → tr (c :: cs) = none)
    {p L s repl : List Char}
    (hp : ∀ c ∈ p, c ≠ '[') (hs : ∀ c ∈ s, c ≠ '[')
    (hm : tr (L ++ s) = some (repl, s)) :
    gsub tr (p ++ L ++ s) = p ++ repl ++ s :=
  gsub_single hc (noStart_of_headProp h1 hp _) hm (noStart_of_headProp h1 hs [])

theorem renameLink_plain {x y p s : List Char} {al : Option (List Char)}
    (hx : okName x = true) (hy : okName y = true)
    (hp : cleanSeg p = true) (hs : cleanSeg s = true) (hal : okAliasOpt al = true) :
    updateWikiLinksCore (p ++ linkPlain x al ++ s) x (some y) none false =
      p ++ linkPlain y al ++ s := by
  have hp1 : ∀ c ∈ p, c ≠ '[' := fun c hc => (cleanSeg_spec hp c hc).1
  have hp2 : ∀ c ∈ p, c ≠ '!' := fun c hc => (cleanSeg_spec hp c hc).2
  have hs1 : ∀ c ∈ s, c ≠ '[' := fun c hc => (cleanSeg_spec hs c hc).1
  have hs2 : ∀ c ∈ s, c ≠ '!' := fun c hc => (cleanSeg_spec hs c hc).2
  have hbx : ∀ c ∈ bodyPlain x al, c ≠ '[' := fun c hc => (bodyPlain_clean hx hal c hc).1
  have hby1 : ∀ c ∈ bodyPlain y al, c ≠ '[' := fun c hc => (bodyPlain_clean hy hal c hc).1
  have hby2 : ∀ c ∈ bodyPlain y al, c ≠ '!' := fun c hc => (bodyPlain_clean hy hal c hc).2
  have hxne : x ≠ [] := (okName_spec hx).1
  show gsub (withRepl (rwEmbed (basenameMd x)) (renEmbedRepl (basenameMd y)))
      (gsub (withRepl (rwPlain (basenameMd x)) (renPlainRepl (basenameMd y)))
        (gsub (withRepl (rwHead (basenameMd x)) (renHeadRepl (basenameMd y)))
          (p ++ linkPlain x al ++ s))) = p ++ linkPlain y al ++ s
  rw [basenameMd_of_name hx, basenameMd_of_name hy]
  -- heading pass: no match anywhere
  have hH : gsub (withRepl (rwHead x) (renHeadRepl y)) (p ++ linkPlain x al ++ s) =
      p ++ linkPlain x al ++ s := by
    unfold linkPlain
    apply gsub_skip_bracket_link
      (fun c cs h => withRepl_none (rwHead_none1 h x cs))
      (fun c d cs h => withRepl_none (rwHead_none2 h x c cs))
      hp1 hs1 hbx
    · unfold bodyPlain
      intro hfalse
      simp at hfalse
    · apply withRepl_none
      cases al with
      | none =>
        have : bodyPlain x none ++ s = x ++ ']' :: ']' :: s := by
          simp [bodyPlain, aliasFrag]
        rw [this]
        exact rwHead_noHash (by decide) _
      | some a =>
        have : bodyPlain x (some a) ++ s = x ++ '|' :: (a ++ ']' :: ']' :: s) := by
          simp [bodyPlain, aliasFrag]
        rw [this]
        exact rwHead_noHash (by decide) _
  rw [hH]
  -- plain pass: rewrites the link
  have hP : gsub (withRepl (rwPlain x) (renPlainRepl y)) (p ++ linkPlain x al ++ s) =
      p ++ linkPlain y al ++ s := by
    apply gsub_match_link (withRepl_consumes (rwPlain_consumes x))
      (fun c cs h => withRepl_none (rwPlain_none1 h x cs))
      hp1 hs1
    cases al with
    | none =>
      have hsh : linkPlain x none ++ s = '[' :: '[' :: (x ++ ']' :: ']' :: s) := by
        simp [linkPlain, bodyPlain, aliasFrag]
      rw [hsh]
      rw [withRepl_some (rwPlain_match_n s)]
      simp [renPlainRepl, linkPlain, bodyPlain, aliasFrag]
    | some a =>
      have hsh : linkPlain x (some a) ++ s = '[' :: '[' :: (x ++ '|' :: (a ++ ']' :: ']' :: s)) := by
        simp [linkPlain, bodyPlain, aliasFrag]
      rw [hsh]
      rw [withRepl_some (rwPlain_match_a hal s)]
      simp [renPlainRepl, linkPlain, bodyPlain, aliasFrag]
  rw [hP]
  -- embed pass: no bang anywhere
  apply gsub_skip_nobang (fun c cs h => withRepl_none (rwEmbed_none1 h x cs))
  intro c hc
  simp only [List.mem_append] at hc
  rcases hc with (hc | hc) | hc
  · exact hp2 c hc
  · unfold linkPlain at hc
    rcases List.mem_cons.mp hc with rfl | hc
    · decide
    rcases List.mem_cons.mp hc with rfl | hc
    · decide
    · exact hby2 c hc
  · exact hs2 c hc

theorem bodyHead_shape {n hd : List Char} {al : Option (List Char)} (s : List Char) :
    bodyHead n hd al ++ s =
      n ++ '#' :: (hd ++ (aliasFrag al ++ ']' :: ']' :: s)) := by
  simp [bodyHead]

theorem renameLink_head {x y hd p s : List Char} {al : Option (List Char)}
    (hx : okName x = true) (hy : okName y = true) (hne : x ≠ y)
    (hh : okHeading hd = true)
    (hp : cleanSeg p = true) (hs : cleanSeg s = true) (hal : okAliasOpt al = true) :
    updateWikiLinksCore (p ++ linkHead x hd al ++ s) x (some y) none false =
      p ++ linkHead y hd al ++ s := by
  have hp1 : ∀ c ∈ p, c ≠ '[' := fun c hc => (cleanSeg_spec hp c hc).1
  have hp2 : ∀ c ∈ p, c ≠ '!' := fun c hc => (cleanSeg_spec hp c hc).2
  have hs1 : ∀ c ∈ s, c ≠ '[' := fun c hc => (cleanSeg_spec hs c hc).1
  have hs2 : ∀ c ∈ s, c ≠ '!' := fun c hc => (cleanSeg_spec hs c hc).2
  have hby1 : ∀ c ∈ bodyHead y hd al, c ≠ '[' := fun c hc => (bodyHead_clean hy hh hal c hc).1
  have hby2 : ∀ c ∈ bodyHead y hd al, c ≠ '!' := fun c hc => (bodyHead_clean hy hh hal c hc).2
  have hyne : y ≠ [] := (okName_spec hy).1
  show gsub (withRepl (rwEmbed (basenameMd x)) (renEmbedRepl (basenameMd y)))
      (gsub (withRepl (rwPlain (basenameMd x)) (renPlainRepl (basenameMd y)))
        (gsub (withRepl (rwHead (basenameMd x)) (renHeadRepl (basenameMd y)))
          (p ++ linkHead x hd al ++ s))) = p ++ linkHead y hd al ++ s
  rw [basenameMd_of_name hx, basenameMd_of_name hy]
  -- heading pass: rewrites the link
  have hH : gsub (withRepl (rwHead x) (renHeadRepl y)) (p ++ linkHead x hd al ++ s) =
      p ++ linkHead y hd al ++ s := by
    apply gsub_match_link (withRepl_consumes (rwHead_consumes x))
      (fun c cs h => withRepl_none (rwHead_none1 h x cs))
      hp1 hs1
    cases al with
    | none =>
      have hsh : linkHead x hd none ++ s = '[' :: '[' :: (x ++ '#' :: (hd ++ ']' :: ']' :: s)) := by
        simp [linkHead, bodyHead, aliasFrag]
      rw [hsh]
      rw [withRepl_some (rwHead_match_n hh s)]
      simp [renHeadRepl, linkHead, bodyHead, aliasFrag]
    | some a =>
      have hsh : linkHead x hd (some a) ++ s =
          '[' :: '[' :: (x ++ '#' :: (hd ++ '|' :: (a ++ ']' :: ']' :: s))) := by
        simp [linkHead, bodyHead, aliasFrag]
      rw [hsh]
      rw [withRepl_some (rwHead_match_a hh hal s)]
      simp [renHeadRepl, linkHead, bodyHead, aliasFrag]
  rw [hH]
  -- plain pass: the rewritten link no longer carries the old name
  have hP : gsub (withRepl (rwPlain x) (renPlainRepl y)) (p ++ linkHead y hd al ++ s) =
      p ++ linkHead y hd al ++ s := by
    unfold linkHead
    apply gsub_skip_bracket_link
      (fun c cs h => withRepl_none (rwPlain_none1 h x cs))
      (fun c d cs h => withRepl_none (rwPlain_none2 h x c cs))
      hp1 hs1 hby1
    · unfold bodyHead
      intro hfalse
      simp at hfalse
    · apply withRepl_none
      rw [bodyHead_shape]
      exact rwPlain_ne hx hy hne (headNotAlnum_cons (by decide) _)
  rw [hP]
  -- embed pass: no bang anywhere
  apply gsub_skip_nobang (fun c cs h => withRepl_none (rwEmbed_none1 h x cs))
  intro c hc
  simp only [List.mem_append] at hc
  rcases hc with (hc | hc) | hc
  · exact hp2 c hc
  · unfold linkHead at hc
    rcases List.mem_cons.mp hc with rfl | hc
    · decide
    rcases List.mem_cons.mp hc with rfl | hc
    · decide
    · exact hby2 c hc
  · exact hs2 c hc

theorem renameLink_embed {x y p s : List Char} {al : Option (List Char)}
    (hx : okName x = true) (hy : okName y = true) (hne : x ≠ y)
    (hp : cleanSeg p = true) (hs : cleanSeg s = true) (hal : okAliasOpt al = true) :
    updateWikiLinksCore (p ++ linkEmbed x al ++ s) x (some y) none false =
      p ++ linkEmbed y al ++ s := by
  have hp1 : ∀ c ∈ p, c ≠ '[' := fun c hc => (cleanSeg_spec hp c hc).1
  have hp2 : ∀ c ∈ p, c ≠ '!' := fun c hc => (cleanSeg_spec hp c hc).2
  have hs1 : ∀ c ∈ s, c ≠ '[' := fun c hc => (cleanSeg_spec hs c hc).1
  have hs2 : ∀ c ∈ s, c ≠ '!' := fun c hc => (cleanSeg_spec hs c hc).2
  have hbx : ∀ c ∈ bodyPlain x al, c ≠ '[' := fun c hc => (bodyPlain_clean hx hal c hc).1
  have hby1 : ∀ c ∈ bodyPlain y al, c ≠ '[' := fun c hc => (bodyPlain_clean hy hal c hc).1
  have hby2 : ∀ c ∈ bodyPlain y al, c ≠ '!' := fun c hc => (bodyPlain_clean hy hal c hc).2
  -- group the bang with the prefix for the bracket passes
  have hregroup : ∀ (z : List Char) (bl : Option (List Char)),
      p ++ linkEmbed z bl ++ s = (p ++ ['!']) ++ linkPlain z bl ++ s := by
    intro z bl
    simp [linkEmbed]
  have hpb1 : ∀ c ∈ p ++ ['!'], c ≠ '[' := by
    intro c hc
    rcases List.mem_append.mp hc with hc | hc
    · exact hp1 c hc
    · rcases List.mem_cons.mp hc with rfl | hc
      · decide
      · exact absurd hc (by simp)
  show gsub (withRepl (rwEmbed (basenameMd x)) (renEmbedRepl (basenameMd y)))
      (gsub (withRepl (rwPlain (basenameMd x)) (renPlainRepl (basenameMd y)))
        (gsub (withRepl (rwHead (basenameMd x)) (renHeadRepl (basenameMd y)))
          (p ++ linkEmbed x al ++ s))) = p ++ linkEmbed y al ++ s
  rw [basenameMd_of_name hx, basenameMd_of_name hy]
  -- heading pass: skip (the plain interior has no hash)
  have hH : gsub (withRepl (rwHead x) (renHeadRepl y)) (p ++ linkEmbed x al ++ s) =
      p ++ linkEmbed x al ++ s := by
    rw [hregroup]
    unfold linkPlain
    apply gsub_skip_bracket_link
      (fun c cs h => withRepl_none (rwHead_none1 h x cs))
      (fun c d cs h => withRepl_none (rwHead_none2 h x c cs))
      hpb1 hs1 hbx
    · unfold bodyPlain
      intro hfalse
      simp at hfalse
    · apply withRepl_none
      cases al with
      | none =>
        have : bodyPlain x none ++ s = x ++ ']' :: ']' :: s := by
          simp [bodyPlain, aliasFrag]
        rw [this]
        exact rwHead_noHash (by decide) _
      | some a =>
        have : bodyPlain x (some a) ++ s = x ++ '|' :: (a ++ ']' :: ']' :: s) := by
          simp [bodyPlain, aliasFrag]
        rw [this]
        exact rwHead_noHash (by decide) _
  rw [hH]
  -- plain pass: rewrites the bracket interior of the embed
  have hP : gsub (withRepl (rwPlain x) (renPlainRepl y)) (p ++ linkEmbed x al ++ s) =
      p ++ linkEmbed y al ++ s := by
    rw [hregroup, hregroup]
    apply gsub_match_link (withRepl_consumes (rwPlain_consumes x))
      (fun c cs h => withRepl_none (rwPlain_none1 h x cs))
      hpb1 hs1
    cases al with
    | none =>
      have hsh : linkPlain x none ++ s = '[' :: '[' :: (x ++ ']' :: ']' :: s) := by
        simp [linkPlain, bodyPlain, aliasFrag]
      rw [hsh]
      rw [withRepl_some (rwPlain_match_n s)]
      simp [renPlainRepl, linkPlain, bodyPlain, aliasFrag]
    | some a =>
      have hsh : linkPlain x (some a) ++ s = '[' :: '[' :: (x ++ '|' :: (a ++ ']' :: ']' :: s)) := by
        simp [linkPlain, bodyPlain, aliasFrag]
      rw [hsh]
      rw [withRepl_some (rwPlain_match_a hal s)]
      simp [renPlainRepl, linkPlain, bodyPlain, aliasFrag]
  rw [hP]
  -- embed pass: the interior now carries the new name, so the embed regex
  -- does not match
  have hshape : p ++ linkEmbed y al ++ s = p ++ ('!' :: linkPlain y al) ++ s := by
    simp [linkEmbed]
  rw [hshape]
  apply gsub_skip_bang_link (fun c cs h => withRepl_none (rwEmbed_none1 h x cs))
    hp2 hs2
  · intro c hc
    unfold linkPlain at hc
    rcases List.mem_cons.mp hc with rfl | hc
    · decide
    rcases List.mem_cons.mp hc with rfl | hc
    · decide
    · exact hby2 c hc
  · apply withRepl_none
    apply rwEmbed_none_of
    cases al with
    | none =>
      have : linkPlain y none ++ s = '[' :: '[' :: (y ++ ']' :: ']' :: s) := by
        simp [linkPlain, bodyPlain, aliasFrag]
      rw [this]
      exact rwPlain_ne hx hy hne (headNotAlnum_cons (by decide) _)
    | some a =>
      have : linkPlain y (some a) ++ s = '[' :: '[' :: (y ++ '|' :: (a ++ ']' :: ']' :: s)) := by
        simp [linkPlain, bodyPlain, aliasFrag]
      rw [this]
      exact rwPlain_ne hx hy hne (headNotAlnum_cons (by decide) _)

theorem strike_clean {n : List Char} {al : Option (List Char)}
    (hn : okName n = true) (hal : okAliasOpt al = true) :
    ∀ c ∈ strikeRepl (linkPlain n al), c ≠ '!' := by
  intro c hc
  unfold strikeRepl linkPlain at hc
  rcases List.mem_cons.mp hc with rfl | hc
  · decide
  rcases List.mem_cons.mp hc with rfl | hc
  · decide
  rcases List.mem_append.mp hc with hc | hc
  · rcases List.mem_cons.mp hc with rfl | hc
    · decide
    rcases List.mem_cons.mp hc with rfl | hc
    · decide
    · exact (bodyPlain_clean hn hal c hc).2
  · rcases List.mem_cons.mp hc with rfl | hc
    · decide
    rcases List.mem_cons.mp hc with rfl | hc
    · decide
    · exact absurd hc (by simp)

theorem deleteLink_plain {n p s : List Char} {al : Option (List Char)}
    (hn : okName n = true) (hp : cleanSeg p = true) (hs : cleanSeg s = true)
    (hal : okAliasOpt al = true) (dvn : Option (List Char)) (mv : Bool) :
    updateWikiLinksCore (p ++ linkPlain n al ++ s) n none dvn mv =
      p ++ strikeRepl (linkPlain n al) ++ s := by
  have hp1 : ∀ c ∈ p, c ≠ '[' := fun c hc => (cleanSeg_spec hp c hc).1
  have hp2 : ∀ c ∈ p, c ≠ '!' := fun c hc => (cleanSeg_spec hp c hc).2
  have hs1 : ∀ c ∈ s, c ≠ '[' := fun c hc => (cleanSeg_spec hs c hc).1
  have hs2 : ∀ c ∈ s, c ≠ '!' := fun c hc => (cleanSeg_spec hs c hc).2
  have hbx : ∀ c ∈ bodyPlain n al, c ≠ '[' := fun c hc => (bodyPlain_clean hn hal c hc).1
  show gsub (withRepl (delEmbed (basenameMd n)) strikeRepl)
      (gsub (withRepl (delPlain (basenameMd n)) strikeRepl)
        (gsub (withRepl (delHead (basenameMd n)) strikeRepl)
          (p ++ linkPlain n al ++ s))) = p ++ strikeRepl (linkPlain n al) ++ s
  rw [basenameMd_of_name hn]
  have hH : gsub (withRepl (delHead n) strikeRepl) (p ++ linkPlain n al ++ s) =
      p ++ linkPlain n al ++ s := by
    unfold linkPlain
    apply gsub_skip_bracket_link
      (fun c cs h => withRepl_none (delHead_none1 h n cs))
      (fun c d cs h => withRepl_none (delHead_none2 h n c cs))
      hp1 hs1 hbx
    · unfold bodyPlain
      intro hfalse
      simp at hfalse
    · apply withRepl_none
      cases al with
      | none =>
        have : bodyPlain n none ++ s = n ++ ']' :: ']' :: s := by
          simp [bodyPlain, aliasFrag]
        rw [this]
        exact delHead_noHash (by decide) _
      | some a =>
        have : bodyPlain n (some a) ++ s = n ++ '|' :: (a ++ ']' :: ']' :: s) := by
          simp [bodyPlain, aliasFrag]
        rw [this]
        exact delHead_noHash (by decide) _
  rw [hH]
  have hP : gsub (withRepl (delPlain n) strikeRepl) (p ++ linkPlain n al ++ s) =
      p ++ strikeRepl (linkPlain n al) ++ s := by
    apply gsub_match_link (withRepl_consumes (delPlain_consumes n))
      (fun c cs h => withRepl_none (delPlain_none1 h n cs))
      hp1 hs1
    cases al with
    | none =>
      have hsh : linkPlain n none ++ s = '[' :: '[' :: (n ++ ']' :: ']' :: s) := by
        simp [linkPlain, bodyPlain, aliasFrag]
      rw [hsh]
      rw [withRepl_some (delPlain_match_n s)]
      simp [strikeRepl, linkPlain, bodyPlain, aliasFrag]
    | some a =>
      have hsh : linkPlain n (some a) ++ s = '[' :: '[' :: (n ++ '|' :: (a ++ ']' :: ']' :: s)) := by
        simp [linkPlain, bodyPlain, aliasFrag]
      rw [hsh]
      rw [withRepl_some (delPlain_match_a (fun c hc => ((okAlias_spec hal).2 c hc).1) s)]
      simp [strikeRepl, linkPlain, bodyPlain, aliasFrag]
  rw [hP]
  apply gsub_skip_nobang (fun c cs h => withRepl_none (delEmbed_none1 h n cs))
  intro c hc
  simp only [List.mem_append] at hc
  rcases hc with (hc | hc) | hc
  · exact hp2 c hc
  · exact strike_clean hn hal c hc
  · exact hs2 c hc

theorem deleteLink_embed {n p s : List Char} {al : Option (List Char)}
    (hn : okName n = true) (hp : cleanSeg p = true) (hs : cleanSeg s = true)
    (hal : okAliasOpt al = true) (dvn : Option (List Char)) (mv : Bool) :
    updateWikiLinksCore (p ++ linkEmbed n al ++ s) n none dvn mv =
      p ++ '!' :: strikeRepl (linkPlain n al) ++ s := by
  have hp1 : ∀ c ∈ p, c ≠ '[' := fun c hc => (cleanSeg_spec hp c hc).1
  have hp2 : ∀ c ∈ p, c ≠ '!' := fun c hc => (cleanSeg_spec hp c hc).2
  have hs1 : ∀ c ∈ s, c ≠ '[' := fun c hc => (cleanSeg_spec hs c hc).1
  have hs2 : ∀ c ∈ s, c ≠ '!' := fun c hc => (cleanSeg_spec hs c hc).2
  have hbx : ∀ c ∈ bodyPlain n al, c ≠ '[' := fun c hc => (bodyPlain_clean hn hal c hc).1
  have hregroup : p ++ linkEmbed n al ++ s = (p ++ ['!']) ++ linkPlain n al ++ s := by
    simp [linkEmbed]
  have hpb1 : ∀ c ∈ p ++ ['!'], c ≠ '[' := by
    intro c hc
    rcases List.mem_append.mp hc with hc | hc
    · exact hp1 c hc
    · rcases List.mem_cons.mp hc with rfl | hc
      · decide
      · exact absurd hc (by simp)
  show gsub (withRepl (delEmbed (basenameMd n)) strikeRepl)
      (gsub (withRepl (delPlain (basenameMd n)) strikeRepl)
        (gsub (withRepl (delHead (basenameMd n)) strikeRepl)
          (p ++ linkEmbed n al ++ s))) = p ++ '!' :: strikeRepl (linkPlain n al) ++ s
  rw [basenameMd_of_name hn]
  have hH : gsub (withRepl (delHead n) strikeRepl) (p ++ linkEmbed n al ++ s) =
      p ++ linkEmbed n al ++ s := by
    rw [hregroup]
    unfold linkPlain
    apply gsub_skip_bracket_link
      (fun c cs h => withRepl_none (delHead_none1 h n cs))
      (fun c d cs h => withRepl_none (delHead_none2 h n c cs))
      hpb1 hs1 hbx
    · unfold bodyPlain
      intro hfalse
      simp at hfalse
    · apply withRepl_none
      cases al with
      | none =>
        have : bodyPlain n none ++ s = n ++ ']' :: ']' :: s := by
          simp [bodyPlain, aliasFrag]
        rw [this]
        exact delHead_noHash (by decide) _
      | some a =>
        have : bodyPlain n (some a) ++ s = n ++ '|' :: (a ++ ']' :: ']' :: s) := by
          simp [bodyPlain, aliasFrag]
        rw [this]
        exact delHead_noHash (by decide) _
  rw [hH]
  have hP : gsub (withRepl (delPlain n) strikeRepl) (p ++ linkEmbed n al ++ s) =
      p ++ '!' :: strikeRepl (linkPlain n al) ++ s := by
    rw [hregroup]
    have hgoal : (p ++ ['!']) ++ strikeRepl (linkPlain n al) ++ s =
        p ++ '!' :: strikeRepl (linkPlain n al) ++ s := by
      simp
    rw [← hgoal]
    apply gsub_match_link (withRepl_consumes (delPlain_consumes n))
      (fun c cs h => withRepl_none (delPlain_none1 h n cs))
      hpb1 hs1
    cases al with
    | none =>
      have hsh : linkPlain n none ++ s = '[' :: '[' :: (n ++ ']' :: ']' :: s) := by
        simp [linkPlain, bodyPlain, aliasFrag]
      rw [hsh]
      rw [withRepl_some (delPlain_match_n s)]
      simp [strikeRepl, linkPlain, bodyPlain, aliasFrag]
    | some a =>
      have hsh : linkPlain n (some a) ++ s = '[' :: '[' :: (n ++ '|' :: (a ++ ']' :: ']' :: s)) := by
        simp [linkPlain, bodyPlain, aliasFrag]
      rw [hsh]
      rw [withRepl_some (delPlain_match_a (fun c hc => ((okAlias_spec hal).2 c hc).1) s)]
      simp [strikeRepl, linkPlain, bodyPlain, aliasFrag]
  rw [hP]
  apply gsub_skip_bang_link (fun c cs h => withRepl_none (delEmbed_none1 h n cs))
    hp2 hs2 (strike_clean hn hal)
  apply withRepl_none
  apply delEmbed_none_of
  exact delPlain_none1 (by decide) n _

/-- C3 (counterexample): a delete targeting `Note` maps the embed
`![[Note]]` to `!~~[[Note]]~~` — the bang is left outside the
strike-through markers, because the plain pass rewrites the bracket span
inside the embed before the embed pass can see it — contradicting the
claim that the full occurrence text including the leading bang is wrapped. -/
theorem c3_counterexample_embed_not_wrapped_whole :
    updateWikiLinks "![[Note]]" "Note" none none false = "!~~[[Note]]~~" ∧
    updateWikiLinks "![[Note]]" "Note" none none false ≠ "~~![[Note]]~~" := by
  constructor
  · decide
  · decide

/-- C3 (amended): a delete rewrite (`newTargetPath` absent) targeting
base-name `n` wraps `[[n]]` and `[[n|Alt]]` whole in strike-through
markers, and wraps only the bracket span of `![[n]]`, leaving the bang
outside (`!~~[[n]]~~`); the surrounding text is unchanged. -/
theorem c3_delete_strikethrough_amended (n p s alt : List Char)
    (dvn : Option String) (mv : Bool)
    (hn : okName n = true) (hp : cleanSeg p = true) (hs : cleanSeg s = true)
    (halt : okAlias alt = true) :
    updateWikiLinks ⟨p ++ linkPlain n none ++ s⟩ ⟨n⟩ none dvn mv =
      ⟨p ++ strikeRepl (linkPlain n none) ++ s⟩ ∧
    updateWikiLinks ⟨p ++ linkPlain n (some alt) ++ s⟩ ⟨n⟩ none dvn mv =
      ⟨p ++ strikeRepl (linkPlain n (some alt)) ++ s⟩ ∧
    updateWikiLinks ⟨p ++ linkEmbed n none ++ s⟩ ⟨n⟩ none dvn mv =
      ⟨p ++ '!' :: strikeRepl (linkPlain n none) ++ s⟩ := by
  refine ⟨?_, ?_, ?_⟩
  · exact congrArg String.mk
      (deleteLink_plain hn hp hs (by rfl) (dvn.map String.data) mv)
  · exact congrArg String.mk
      (deleteLink_plain hn hp hs (by simpa [okAliasOpt] using halt) (dvn.map String.data) mv)
  · exact congrArg String.mk
      (deleteLink_embed hn hp hs (by rfl) (dvn.map String.data) mv)

/-- C3 witness: the amended delete behavior at a concrete document. -/
theorem c3_delete_strikethrough_amended_witness :
    updateWikiLinks ⟨"x ".data ++ linkPlain "Note".data none ++ " y".data⟩ ⟨"Note".data⟩
        none none false =
      ⟨"x ".data ++ strikeRepl (linkPlain "Note".data none) ++ " y".data⟩ ∧
    updateWikiLinks ⟨"x ".data ++ linkPlain "Note".data (some "Alt".data) ++ " y".data⟩
        ⟨"Note".data⟩ none none false =
      ⟨"x ".data ++ strikeRepl (linkPlain "Note".data (some "Alt".data)) ++ " y".data⟩ ∧
    updateWikiLinks ⟨"x ".data ++ linkEmbed "Note".data none ++ " y".data⟩ ⟨"Note".data⟩
        none none false =
      ⟨"x ".data ++ '!' :: strikeRepl (linkPlain "Note".data none) ++ " y".data⟩ :=
  c3_delete_strikethrough_amended "Note".data "x ".data " y".data "Alt".data none false
    (by decide) (by decide) (by decide) (by decide)

/-- C6 (counterexample): the round-trip fails byte-for-byte on a document
that already links to the new name: renaming A to B leaves `[[B]]`
untouched, and the rename back from B to A turns it into `[[A]]`. -/
theorem c6_counterexample_preexisting_target_link :
    updateWikiLinks (updateWikiLinks "[[B]]" "A" (some "B") none false) "B" (some "A")
        none false = "[[A]]" ∧
    ("[[A]]" : String) ≠ "[[B]]" := by
  constructor
  · decide
  · decide

/-- C6 (amended): for alphanumeric base-names A not-equal B and a document
consisting of one link occurrence (plain, heading, or embed, with or
without alias) between segments free of brackets and bangs — in particular
containing no pre-existing reference to B — rewriting a rename from A to B
and then from B to A restores the document byte-for-byte, aliases and
heading fragments preserved. -/
theorem c6_rename_roundtrip_amended (A B p s hd : List Char) (al : Option (List Char))
    (hA : okName A = true) (hB : okName B = true) (hne : A ≠ B)
    (hh : okHeading hd = true) (hp : cleanSeg p = true) (hs : cleanSeg s = true)
    (hal : okAliasOpt al = true) :
    updateWikiLinks (updateWikiLinks ⟨p ++ linkPlain A al ++ s⟩ ⟨A⟩ (some ⟨B⟩) none false)
        ⟨B⟩ (some ⟨A⟩) none false = ⟨p ++ linkPlain A al ++ s⟩ ∧
    updateWikiLinks (updateWikiLinks ⟨p ++ linkHead A hd al ++ s⟩ ⟨A⟩ (some ⟨B⟩) none false)
        ⟨B⟩ (some ⟨A⟩) none false = ⟨p ++ linkHead A hd al ++ s⟩ ∧
    updateWikiLinks (updateWikiLinks ⟨p ++ linkEmbed A al ++ s⟩ ⟨A⟩ (some ⟨B⟩) none false)
        ⟨B⟩ (some ⟨A⟩) none false = ⟨p ++ linkEmbed A al ++ s⟩ := by
  refine ⟨?_, ?_, ?_⟩
  · show (⟨updateWikiLinksCore
        (updateWikiLinksCore (p ++ linkPlain A al ++ s) A (some B) none false)
        B (some A) none false⟩ : String) = ⟨p ++ linkPlain A al ++ s⟩
    rw [renameLink_plain hA hB hp hs hal, renameLink_plain hB hA hp hs hal]
  · show (⟨updateWikiLinksCore
        (updateWikiLinksCore (p ++ linkHead A hd al ++ s) A (some B) none false)
        B (some A) none false⟩ : String) = ⟨p ++ linkHead A hd al ++ s⟩
    rw [renameLink_head hA hB hne hh hp hs hal,
        renameLink_head hB hA (Ne.symm hne) hh hp hs hal]
  · show (⟨updateWikiLinksCore
        (updateWikiLinksCore (p ++ linkEmbed A al ++ s) A (some B) none false)
        B (some A) none false⟩ : String) = ⟨p ++ linkEmbed A al ++ s⟩
    rw [renameLink_embed hA hB hne hp hs hal,
        renameLink_embed hB hA (Ne.symm hne) hp hs hal]

/-- C6 witness: the amended round-trip at concrete documents. -/
theorem c6_rename_roundtrip_amended_witness :
    updateWikiLinks (updateWikiLinks ⟨"x ".data ++ linkPlain "A1".data (some "Q1".data) ++ " y".data⟩
        ⟨"A1".data⟩ (some ⟨"B2".data⟩) none false) ⟨"B2".data⟩ (some ⟨"A1".data⟩) none false =
      ⟨"x ".data ++ linkPlain "A1".data (some "Q1".data) ++ " y".data⟩ ∧
    updateWikiLinks (updateWikiLinks ⟨"x ".data ++ linkHead "A1".data "Sec".data (some "Q1".data) ++ " y".data⟩
        ⟨"A1".data⟩ (some ⟨"B2".data⟩) none false) ⟨"B2".data⟩ (some ⟨"A1".data⟩) none false =
      ⟨"x ".data ++ linkHead "A1".data "Sec".data (some "Q1".data) ++ " y".data⟩ ∧
    updateWikiLinks (updateWikiLinks ⟨"x ".data ++ linkEmbed "A1".data (some "Q1".data) ++ " y".data⟩
        ⟨"A1".data⟩ (some ⟨"B2".data⟩) none false) ⟨"B2".data⟩ (some ⟨"A1".data⟩) none false =
      ⟨"x ".data ++ linkEmbed "A1".data (some "Q1".data) ++ " y".data⟩ :=
  c6_rename_roundtrip_amended "A1".data "B2".data "x ".data " y".data "Sec".data
    (some "Q1".data) (by decide) (by decide) (by decide) (by decide) (by decide)
    (by decide) (by decide)

theorem splitOnChar_noSep {sep : Char} {l : List Char} (h : ∀ c ∈ l, c ≠ sep) :
    splitOnChar sep l = [l] := by
  induction l with
  | nil => rfl
  | cons c cs ih =>
    unfold splitOnChar
    rw [ih (fun d hd => h d (by simp [hd]))]
    simp [h c (by simp)]

theorem findWikiLinksCore_oneLine {l : List Char} (h : ∀ c ∈ l, c ≠ '\n') :
    findWikiLinksCore l =
      ((scanAll pPlain l).foldl
        (fun acc g =>
          if acc.any (fun lk => lk.text == g.2.2) then acc
          else acc ++ [⟨g.2.2, g.1, g.2.1, none, 1, trimWS l, false⟩])
        ((scanAll pHead l).map (fun g => ⟨g.2.2.2, g.1, g.2.2.1, some g.2.1, 1, trimWS l, true⟩)))
      ++ (scanAll pEmbed l).map (fun g => ⟨g.2.2, g.1, g.2.1, none, 1, trimWS l, false⟩) := by
  unfold findWikiLinksCore
  rw [splitOnChar_noSep h]
  rfl

theorem pHead_match {t hd : List Char} {al : Option (List Char)}
    (ht : okName t = true) (hh : okHeading hd = true) (hal : okAliasOpt al = true)
    (s : List Char) :
    pHead (linkHead t hd al ++ s) = some ((t, hd, al, linkHead t hd al), s) := by
  have htcl : ∀ c ∈ t, notRBPipeHash c = true := by
    intro c hc
    have := alnum_not_special ((okName_spec ht).2 c hc)
    simp [notRBPipeHash, this.2.1, this.2.2.1, this.2.2.2.1]
  cases al with
  | none =>
    have hsh : linkHead t hd none ++ s =
        '[' :: '[' :: (t ++ '#' :: (hd ++ ']' :: ']' :: s)) := by
      simp [linkHead, bodyHead, aliasFrag]
    rw [hsh]
    have ht1 : take1While notRBPipeHash (t ++ '#' :: (hd ++ ']' :: ']' :: s)) =
        some (t, '#' :: (hd ++ ']' :: ']' :: s)) :=
      take1While_app _ (okName_spec ht).1 htcl (by simp [notRBPipeHash])
    have ht2 : take1While notRBPipe (hd ++ ']' :: ']' :: s) = some (hd, ']' :: ']' :: s) :=
      take1While_app _ (okHeading_spec hh).1 (notRBPipe_of_heading hh) (by simp [notRBPipe])
    simp [pHead, expectChar_pos, ht1, ht2, tailAliasClose_noAlias,
      linkHead, bodyHead, aliasFrag]
  | some a =>
    have hsh : linkHead t hd (some a) ++ s =
        '[' :: '[' :: (t ++ '#' :: (hd ++ '|' :: (a ++ ']' :: ']' :: s))) := by
      simp [linkHead, bodyHead, aliasFrag]
    rw [hsh]
    have ht1 : take1While notRBPipeHash (t ++ '#' :: (hd ++ '|' :: (a ++ ']' :: ']' :: s))) =
        some (t, '#' :: (hd ++ '|' :: (a ++ ']' :: ']' :: s))) :=
      take1While_app _ (okName_spec ht).1 htcl (by simp [notRBPipeHash])
    have ht2 : take1While notRBPipe (hd ++ '|' :: (a ++ ']' :: ']' :: s)) =
        some (hd, '|' :: (a ++ ']' :: ']' :: s)) :=
      take1While_app _ (okHeading_spec hh).1 (notRBPipe_of_heading hh) (by simp [notRBPipe])
    have hta : tailAliasClose ('|' :: (a ++ ']' :: ']' :: s)) = some (some a, s) :=
      tailAliasClose_alias _ (okAlias_spec hal).1 (fun c hc => ((okAlias_spec hal).2 c hc).1)
    simp [pHead, expectChar_pos, ht1, ht2, hta, linkHead, bodyHead, aliasFrag]

theorem pPlain_match {t : List Char} {al : Option (List Char)}
    (ht0 : t ≠ []) (ht : ∀ c ∈ t, notRBPipe c = true) (hal : okAliasOpt al = true)
    (s : List Char) :
    pPlain (linkPlain t al ++ s) = some ((t, al, linkPlain t al), s) := by
  cases al with
  | none =>
    have hsh : linkPlain t none ++ s = '[' :: '[' :: (t ++ ']' :: ']' :: s) := by
      simp [linkPlain, bodyPlain, aliasFrag]
    rw [hsh]
    have ht1 : take1While notRBPipe (t ++ ']' :: ']' :: s) = some (t, ']' :: ']' :: s) :=
      take1While_app _ ht0 ht (by simp [notRBPipe])
    simp [pPlain, expectChar_pos, ht1, tailAliasClose_noAlias,
      linkPlain, bodyPlain, aliasFrag]
  | some a =>
    have hsh : linkPlain t (some a) ++ s =
        '[' :: '[' :: (t ++ '|' :: (a ++ ']' :: ']' :: s)) := by
      simp [linkPlain, bodyPlain, aliasFrag]
    rw [hsh]
    have ht1 : take1While notRBPipe (t ++ '|' :: (a ++ ']' :: ']' :: s)) =
        some (t, '|' :: (a ++ ']' :: ']' :: s)) :=
      take1While_app _ ht0 ht (by simp [notRBPipe])
    have hta : tailAliasClose ('|' :: (a ++ ']' :: ']' :: s)) = some (some a, s) :=
      tailAliasClose_alias _ (okAlias_spec hal).1 (fun c hc => ((okAlias_spec hal).2 c hc).1)
    simp [pPlain, expectChar_pos, ht1, hta, linkPlain, bodyPlain, aliasFrag]

theorem pPlain_match_headText {t hd : List Char} {al : Option (List Char)}
    (ht : okName t = true) (hh : okHeading hd = true) (hal : okAliasOpt al = true)
    (s : List Char) :
    pPlain (linkHead t hd al ++ s) = some ((t ++ '#' :: hd, al, linkHead t hd al), s) := by
  have hshape : ∀ (r : List Char), linkHead t hd al ++ r = linkPlain (t ++ '#' :: hd) al ++ r := by
    intro r
    simp [linkHead, linkPlain, bodyHead, bodyPlain]
  rw [hshape]
  have hcl : ∀ c ∈ t ++ '#' :: hd, notRBPipe c = true := by
    intro c hc
    rcases List.mem_append.mp hc with hc | hc
    · have := alnum_not_special ((okName_spec ht).2 c hc)
      simp [notRBPipe, this.2.1, this.2.2.1]
    · rcases List.mem_cons.mp hc with rfl | hc
      · simp [notRBPipe]
      · obtain ⟨h1, h2, -, -, -⟩ := (okHeading_spec hh).2 c hc
        simp [notRBPipe, h1, h2]
  rw [pPlain_match (by simp) hcl hal s]
  have heq : linkPlain (t ++ '#' :: hd) al = linkHead t hd al := by
    simp [linkHead, linkPlain, bodyHead, bodyPlain]
  rw [heq]

theorem pHead_noHash {t : List Char} {al : Option (List Char)}
    (ht : okName t = true) (hal : okAliasOpt al = true) (s : List Char) :
    pHead (linkPlain t al ++ s) = none := by
  have htcl : ∀ c ∈ t, notRBPipeHash c = true := by
    intro c hc
    have := alnum_not_special ((okName_spec ht).2 c hc)
    simp [notRBPipeHash, this.2.1, this.2.2.1, this.2.2.2.1]
  cases al with
  | none =>
    have hsh : linkPlain t none ++ s = '[' :: '[' :: (t ++ ']' :: ']' :: s) := by
      simp [linkPlain, bodyPlain, aliasFrag]
    rw [hsh]
    have ht1 : take1While notRBPipeHash (t ++ ']' :: ']' :: s) = some (t, ']' :: ']' :: s) :=
      take1While_app _ (okName_spec ht).1 htcl (by simp [notRBPipeHash])
    simp [pHead, expectChar_pos, ht1, expectChar_neg (show ']' ≠ '#' by decide)]
  | some a =>
    have hsh : linkPlain t (some a) ++ s =
        '[' :: '[' :: (t ++ '|' :: (a ++ ']' :: ']' :: s)) := by
      simp [linkPlain, bodyPlain, aliasFrag]
    rw [hsh]
    have ht1 : take1While notRBPipeHash (t ++ '|' :: (a ++ ']' :: ']' :: s)) =
        some (t, '|' :: (a ++ ']' :: ']' :: s)) :=
      take1While_app _ (okName_spec ht).1 htcl (by simp [notRBPipeHash])
    simp [pHead, expectChar_pos, ht1, expectChar_neg (show '|' ≠ '#' by decide)]

theorem pEmbed_match {t : List Char} {al : Option (List Char)}
    (ht0 : t ≠ []) (ht : ∀ c ∈ t, notRBPipe c = true) (hal : okAliasOpt al = true)
    (s : List Char) :
    pEmbed (linkEmbed t al ++ s) = some ((t, al, linkEmbed t al), s) := by
  have hsh : linkEmbed t al ++ s = '!' :: (linkPlain t al ++ s) := by
    simp [linkEmbed]
  rw [hsh]
  simp [pEmbed, expectChar_pos, pPlain_match ht0 ht hal s, linkEmbed]

theorem cleanLine_spec {l : List Char} (h : cleanLine l = true) :
    ∀ c ∈ l, c ≠ '[' ∧ c ≠ '!' ∧ c ≠ '\n' := by
  unfold cleanLine at h
  simp only [List.all_eq_true] at h
  intro c hc
  have := h c hc
  simp only [Bool.and_eq_true, Bool.not_eq_true', beq_eq_false_iff_ne] at this
  exact ⟨this.1.1, this.1.2, this.2⟩

theorem aliasFrag_noNL {al : Option (List Char)} (h : okAliasOpt al = true) :
    ∀ c ∈ aliasFrag al, c ≠ '\n' := by
  intro c hc
  cases al with
  | none => exact absurd hc (by simp [aliasFrag])
  | some a =>
    rw [show aliasFrag (some a) = '|' :: a from rfl] at hc
    rcases List.mem_cons.mp hc with rfl | hc
    · decide
    · exact ((okAlias_spec h).2 c hc).2.2.2

theorem bodyPlain_noNL {n : List Char} {al : Option (List Char)}
    (hn : okName n = true) (hal : okAliasOpt al = true) :
    ∀ c ∈ bodyPlain n al, c ≠ '\n' := by
  intro c hc
  unfold bodyPlain at hc
  simp only [List.mem_append, List.mem_cons, List.not_mem_nil, or_false] at hc
  rcases hc with (hc | hc) | (rfl | rfl)
  · exact (alnum_not_special ((okName_spec hn).2 c hc)).2.2.2.2.2.2.2.2
  · exact aliasFrag_noNL hal c hc
  · decide
  · decide

theorem bodyHead_noNL {n hd : List Char} {al : Option (List Char)}
    (hn : okName n = true) (hh : okHeading hd = true) (hal : okAliasOpt al = true) :
    ∀ c ∈ bodyHead n hd al, c ≠ '\n' := by
  intro c hc
  unfold bodyHead at hc
  simp only [List.mem_append, List.mem_cons, List.not_mem_nil, or_false] at hc
  rcases hc with ((hc | (rfl | hc)) | hc) | (rfl | rfl)
  · exact (alnum_not_special ((okName_spec hn).2 c hc)).2.2.2.2.2.2.2.2
  · decide
  · exact ((okHeading_spec hh).2 c hc).2.2.2.2
  · exact aliasFrag_noNL hal c hc
  · decide
  · decide

theorem scanAll_single {G : Type} {m : List Char → Option (G × List Char)}
    (hc : ConsumesM m) {p L s : List Char} {g : G}
    (hp : NoStart m p (L ++ s)) (hm : m (L ++ s) = some (g, s)) (hs : NoStart m s []) :
    scanAll m (p ++ L ++ s) = [g] := by
  rw [List.append_assoc, scanAll_append hp, scanAll_cons_some hc hm,
    scanAll_nil_of_noStart hs]

theorem scanAll_nil_bracket_link {G : Type} {m : List Char → Option (G × List Char)}
    {p body s : List Char}
    (h1 : ∀ (c : Char) (cs : List Char), c ≠ '[' → m (c :: cs) = none)
    (h2 : ∀ (c d : Char) (cs : List Char), d ≠ '[' → m (c :: d :: cs) = none)
    (hp : ∀ c ∈ p, c ≠ '[') (hs : ∀ c ∈ s, c ≠ '[') (hbody : ∀ c ∈ body, c ≠ '[')
    (hbne : body ≠ [])
    (hb0 : m ('[' :: '[' :: (body ++ s)) = none) :
    scanAll m (p ++ ('[' :: '[' :: body) ++ s) = [] := by
  apply scanAll_nil_of_noStart
  apply noStart_full h1 hp hs hbody hb0
  cases body with
  | nil => exact absurd rfl hbne
  | cons b0 bt => exact h2 '[' b0 _ (hbody b0 (by simp))

/-- C9: a line containing a heading link (with or without alias) between
bracket-free segments parses to exactly one occurrence, marked as a heading
link; the plain-link scan, which also matches the same span, is suppressed
by the raw-text deduplication check. -/
theorem c9_heading_link_single_occurrence (p s T Hd : List Char) (al : Option (List Char))
    (hT : okName T = true) (hH : okHeading Hd = true) (hal : okAliasOpt al = true)
    (hp : cleanLine p = true) (hs : cleanLine s = true) :
    findWikiLinks ⟨p ++ linkHead T Hd al ++ s⟩ =
      [⟨linkHead T Hd al, T, al, some Hd, 1, trimWS (p ++ linkHead T Hd al ++ s), true⟩] := by
  have hp1 : ∀ c ∈ p, c ≠ '[' := fun c hc => (cleanLine_spec hp c hc).1
  have hp2 : ∀ c ∈ p, c ≠ '!' := fun c hc => (cleanLine_spec hp c hc).2.1
  have hs1 : ∀ c ∈ s, c ≠ '[' := fun c hc => (cleanLine_spec hs c hc).1
  have hs2 : ∀ c ∈ s, c ≠ '!' := fun c hc => (cleanLine_spec hs c hc).2.1
  have hnl : ∀ c ∈ p ++ linkHead T Hd al ++ s, c ≠ '\n' := by
    intro c hc
    simp only [List.mem_append] at hc
    rcases hc with (hc | hc) | hc
    · exact (cleanLine_spec hp c hc).2.2
    · unfold linkHead at hc
      rcases List.mem_cons.mp hc with rfl | hc
      · decide
      rcases List.mem_cons.mp hc with rfl | hc
      · decide
      · exact bodyHead_noNL hT hH hal c hc
    · exact (cleanLine_spec hs c hc).2.2
  show findWikiLinksCore (p ++ linkHead T Hd al ++ s) = _
  rw [findWikiLinksCore_oneLine hnl]
  have hHead : scanAll pHead (p ++ linkHead T Hd al ++ s) =
      [(T, Hd, al, linkHead T Hd al)] :=
    scanAll_single pHead_consumes
      (noStart_of_headProp (fun c cs h => pHead_none1 h cs) hp1 _)
      (pHead_match hT hH hal s)
      (noStart_of_headProp (fun c cs h => pHead_none1 h cs) hs1 [])
  have hPlain : scanAll pPlain (p ++ linkHead T Hd al ++ s) =
      [(T ++ '#' :: Hd, al, linkHead T Hd al)] :=
    scanAll_single pPlain_consumes
      (noStart_of_headProp (fun c cs h => pPlain_none1 h cs) hp1 _)
      (pPlain_match_headText hT hH hal s)
      (noStart_of_headProp (fun c cs h => pPlain_none1 h cs) hs1 [])
  have hEmbed : scanAll pEmbed (p ++ linkHead T Hd al ++ s) = [] := by
    apply scanAll_nil_of_noStart
    apply noStart_of_headProp (fun c cs h => pEmbed_none1 h cs)
    intro c hc
    simp only [List.mem_append] at hc
    rcases hc with (hc | hc) | hc
    · exact hp2 c hc
    · unfold linkHead at hc
      rcases List.mem_cons.mp hc with rfl | hc
      · decide
      rcases List.mem_cons.mp hc with rfl | hc
      · decide
      · exact (bodyHead_clean hT hH hal c hc).2
    · exact hs2 c hc
  rw [hHead, hPlain, hEmbed]
  simp [List.foldl, List.any, beq_self_eq_true]

/-- C4 (counterexample): a document whose single line holds only the embed
`![[T]]` parses to two occurrences — a plain-link occurrence for the
bracket span inside the embed and the embed occurrence — not one. -/
theorem c4_counterexample_embed_also_parsed_plain :
    (findWikiLinks "![[T]]").length = 2 ∧ (findWikiLinks "![[T]]").length ≠ 1 := by
  constructor
  · decide
  · decide

/-- C4 (amended): a line whose only bracket sequence is a single embed
link, with bracket- and bang-free surroundings, parses to exactly two
occurrences: a plain-link occurrence for the bracket span inside the embed,
then the embed occurrence itself. -/
theorem c4_embed_parsed_twice (p s T : List Char) (al : Option (List Char))
    (hT : okName T = true) (hal : okAliasOpt al = true)
    (hp : cleanLine p = true) (hs : cleanLine s = true) :
    findWikiLinks ⟨p ++ linkEmbed T al ++ s⟩ =
      [⟨linkPlain T al, T, al, none, 1, trimWS (p ++ linkEmbed T al ++ s), false⟩,
       ⟨linkEmbed T al, T, al, none, 1, trimWS (p ++ linkEmbed T al ++ s), false⟩] := by
  have hp1 : ∀ c ∈ p, c ≠ '[' := fun c hc => (cleanLine_spec hp c hc).1
  have hp2 : ∀ c ∈ p, c ≠ '!' := fun c hc => (cleanLine_spec hp c hc).2.1
  have hs1 : ∀ c ∈ s, c ≠ '[' := fun c hc => (cleanLine_spec hs c hc).1
  have hs2 : ∀ c ∈ s, c ≠ '!' := fun c hc => (cleanLine_spec hs c hc).2.1
  have hbody1 : ∀ c ∈ bodyPlain T al, c ≠ '[' := fun c hc => (bodyPlain_clean hT hal c hc).1
  have hbody2 : ∀ c ∈ bodyPlain T al, c ≠ '!' := fun c hc => (bodyPlain_clean hT hal c hc).2
  have hTcl : ∀ c ∈ T, notRBPipe c = true := by
    intro c hc
    have := alnum_not_special ((okName_spec hT).2 c hc)
    simp [notRBPipe, this.2.1, this.2.2.1]
  have hpb1 : ∀ c ∈ p ++ ['!'], c ≠ '[' := by
    intro c hc
    rcases List.mem_append.mp hc with hc | hc
    · exact hp1 c hc
    · rcases List.mem_cons.mp hc with rfl | hc
      · decide
      · exact absurd hc (by simp)
  have hregroup : p ++ linkEmbed T al ++ s = (p ++ ['!']) ++ linkPlain T al ++ s := by
    simp [linkEmbed]
  have hnl : ∀ c ∈ p ++ linkEmbed T al ++ s, c ≠ '\n' := by
    intro c hc
    simp only [List.mem_append] at hc
    rcases hc with (hc | hc) | hc
    · exact (cleanLine_spec hp c hc).2.2
    · unfold linkEmbed linkPlain at hc
      rcases List.mem_cons.mp hc with rfl | hc
      · decide
      rcases List.mem_cons.mp hc with rfl | hc
      · decide
      rcases List.mem_cons.mp hc with rfl | hc
      · decide
      · exact bodyPlain_noNL hT hal c hc
    · exact (cleanLine_spec hs c hc).2.2
  show findWikiLinksCore (p ++ linkEmbed T al ++ s) = _
  rw [findWikiLinksCore_oneLine hnl]
  have hHead : scanAll pHead (p ++ linkEmbed T al ++ s) = [] := by
    rw [hregroup]
    unfold linkPlain
    apply scanAll_nil_bracket_link
      (fun c cs h => pHead_none1 h cs)
      (fun c d cs h => pHead_none2 h c cs)
      hpb1 hs1 hbody1
    · unfold bodyPlain
      intro hfalse
      simp at hfalse
    · have : ('[' : Char) :: '[' :: (bodyPlain T al ++ s) = linkPlain T al ++ s := by
        simp [linkPlain]
      rw [this]
      exact pHead_noHash hT hal s
  have hPlain : scanAll pPlain (p ++ linkEmbed T al ++ s) =
      [(T, al, linkPlain T al)] := by
    rw [hregroup]
    exact scanAll_single pPlain_consumes
      (noStart_of_headProp (fun c cs h => pPlain_none1 h cs) hpb1 _)
      (pPlain_match (okName_spec hT).1 hTcl hal s)
      (noStart_of_headProp (fun c cs h => pPlain_none1 h cs) hs1 [])
  have hEmbed : scanAll pEmbed (p ++ linkEmbed T al ++ s) =
      [(T, al, linkEmbed T al)] := by
    apply scanAll_single pEmbed_consumes
      (noStart_of_headProp (fun c cs h => pEmbed_none1 h cs) hp2 _)
      (pEmbed_match (okName_spec hT).1 hTcl hal s)
    apply noStart_of_headProp (fun c cs h => pEmbed_none1 h cs) hs2
  rw [hHead, hPlain, hEmbed]
  simp [List.foldl]

/-- C9 witness: the heading-link line parse at a concrete document. -/
theorem c9_heading_link_single_occurrence_witness :
    findWikiLinks ⟨"see ".data ++ linkHead "Note".data "Heading".data none ++ " ok".data⟩ =
      [⟨linkHead "Note".data "Heading".data none, "Note".data, none, some "Heading".data, 1,
        trimWS ("see ".data ++ linkHead "Note".data "Heading".data none ++ " ok".data), true⟩] :=
  c9_heading_link_single_occurrence "see ".data " ok".data "Note".data "Heading".data none
    (by decide) (by decide) (by decide) (by decide) (by decide)

/-- C4 witness: the embed-only line parse at a concrete document. -/
theorem c4_embed_parsed_twice_witness :
    findWikiLinks ⟨"a ".data ++ linkEmbed "T1".data none ++ " b".data⟩ =
      [⟨linkPlain "T1".data none, "T1".data, none, none, 1,
        trimWS ("a ".data ++ linkEmbed "T1".data none ++ " b".data), false⟩,
       ⟨linkEmbed "T1".data none, "T1".data, none, none, 1,
        trimWS ("a ".data ++ linkEmbed "T1".data none ++ " b".data), false⟩] :=
  c4_embed_parsed_twice "a ".data " b".data "T1".data none
    (by decide) (by decide) (by decide) (by decide)

/-- C1: when `updateVaultLinks` classifies an operation as
moved-to-other-vault (`oldPath` present, `newPath` absent, both vault names
present), the rewrite is the delete branch — every matching occurrence is
struck through — because `updateWikiLinks` tests `newPath` before the
cross-vault flag, so the `destCollectionName/` prefix rewrite never runs.
The struck-through result differs from the prefixed link the claim
requires. -/
theorem c1_moved_to_other_collection_strikes_through :
    updateVaultLinks envAllOk "v".data (some "Note.md".data) none
        (some "S".data) (some "D".data) [("a.md".data, "[[Note]]".data)] =
      .ok ([("a.md".data, "~~[[Note]]~~".data)], 1) ∧
    updateWikiLinks "[[Note]]" "Note.md" none (some "D") true = "~~[[Note]]~~" ∧
    ("~~[[Note]]~~".data : List Char) ≠ "[[D/Note]]".data := by
  refine ⟨by decide, by decide, by decide⟩

/-- C2: for a moved-from-other-vault operation the informational note is
appended to every processed document except the destination — the
destination itself is skipped by the move check, and every other document's
content is extended with the note (which also makes it count as updated). -/
theorem c2_moved_from_note_on_wrong_documents :
    updateVaultLinks envAllOk "v".data none (some "dest.md".data)
        (some "S".data) (some "D".data)
        [("dest.md".data, "d".data), ("other.md".data, "o".data)] =
      .ok ([("dest.md".data, "d".data),
            ("other.md".data, "o".data ++ movedFromNote "S".data)], 1) ∧
    ("o".data ++ movedFromNote "S".data : List Char) ≠ "o".data := by
  refine ⟨by decide, by decide⟩

/-- C10: the index cache is keyed only on time.  After a build for root A,
a later non-forced call for any root B within the TTL returns the index
built from A's documents and leaves the cache untouched; no rebuild for B
happens. -/
theorem c10_cache_ignores_collection_root
    (fsFiles : List Char → List (List Char × List Char))
    (A B : List Char) (t0 t1 : Nat) (st0 : LinkCache)
    (h : t1 - t0 ≤ CACHE_TTL) :
    (getOrUpdateLinkMap fsFiles t1 B false
        (getOrUpdateLinkMap fsFiles t0 A true st0).2).1 =
      createWikiLinkMap A (fsFiles A) ∧
    (getOrUpdateLinkMap fsFiles t1 B false
        (getOrUpdateLinkMap fsFiles t0 A true st0).2).2 =
      (getOrUpdateLinkMap fsFiles t0 A true st0).2 := by
  have hfirst : (getOrUpdateLinkMap fsFiles t0 A true st0).2 =
      ⟨some (createWikiLinkMap A (fsFiles A)), t0⟩ := by
    unfold getOrUpdateLinkMap
    cases hm : st0.map with
    | none => rfl
    | some m => simp
  rw [hfirst]
  have hcond : decide (CACHE_TTL < t1 - t0) = false := by
    simp only [decide_eq_false_iff_not, not_lt]
    exact h
  constructor
  · unfold getOrUpdateLinkMap
    simp [hcond]
  · unfold getOrUpdateLinkMap
    simp [hcond]

/-- C10 witness: a cache populated for root RA serves a later query for
root RB from RA's build within the TTL. -/
theorem c10_cache_ignores_collection_root_witness :
    (getOrUpdateLinkMap
        (fun r => if r = "ra".data then [("a.md".data, "[[X]]".data)] else [])
        1000 "rb".data false
        (getOrUpdateLinkMap
          (fun r => if r = "ra".data then [("a.md".data, "[[X]]".data)] else [])
          0 "ra".data true ⟨none, 0⟩).2).1 =
      createWikiLinkMap "ra".data
        ((fun r => if r = "ra".data then [("a.md".data, "[[X]]".data)] else []) "ra".data) :=
  (c10_cache_ignores_collection_root
    (fun r => if r = "ra".data then [("a.md".data, "[[X]]".data)] else [])
    "ra".data "rb".data 0 1000 ⟨none, 0⟩ (by decide)).1

theorem insertByDepth_perm (x : LinkUpdateSpec) (l : List LinkUpdateSpec) :
    (insertByDepth x l).Perm (x :: l) := by
  induction l with
  | nil => exact List.Perm.refl _
  | cons y ys ih =>
    unfold insertByDepth
    split
    · exact List.Perm.refl _
    · exact (List.Perm.cons y ih).trans (List.Perm.swap x y ys)

theorem insertByDepth_mem {z x : LinkUpdateSpec} {l : List LinkUpdateSpec}
    (h : z ∈ insertByDepth x l) : z = x ∨ z ∈ l :=
  List.mem_cons.mp ((insertByDepth_perm x l).mem_iff.mp h)

theorem insertByDepth_pairwise {x : LinkUpdateSpec} {l : List LinkUpdateSpec}
    (h : List.Pairwise (fun a b => pathDepth b.oldPath ≤ pathDepth a.oldPath) l) :
    List.Pairwise (fun a b => pathDepth b.oldPath ≤ pathDepth a.oldPath)
      (insertByDepth x l) := by
  induction l with
  | nil => simp [insertByDepth]
  | cons y ys ih =>
    unfold insertByDepth
    rw [List.pairwise_cons] at h
    split
    · rename_i hlt
      rw [List.pairwise_cons]
      constructor
      · intro z hz
        rcases List.mem_cons.mp hz with rfl | hz
        · omega
        · have := h.1 z hz
          omega
      · exact List.pairwise_cons.mpr h
    · rename_i hnlt
      rw [List.pairwise_cons]
      constructor
      · intro z hz
        rcases insertByDepth_mem hz with rfl | hz
        · omega
        · exact h.1 z hz
      · exact ih h.2

/-- C7: `batchUpdateLinks` performs the per-update work over the sorted
copy of the updates: a permutation of the input in which the number of
path segments of `oldPath` is non-increasing, so an update with strictly
more segments is always processed before one with fewer, regardless of
input order. -/
theorem c7_batch_processes_deepest_first (updates : List LinkUpdateSpec) :
    (sortUpdates updates).Perm updates ∧
    List.Pairwise (fun a b => pathDepth b.oldPath ≤ pathDepth a.oldPath)
      (sortUpdates updates) := by
  constructor
  · induction updates with
    | nil => exact List.Perm.refl _
    | cons x xs ih =>
      exact (insertByDepth_perm x (sortUpdates xs)).trans (List.Perm.cons x ih)
  · induction updates with
    | nil => simp [sortUpdates]
    | cons x xs ih => exact insertByDepth_pairwise ih

/-- C5 (counterexample): one document with broken links to two distinct
missing targets is written and counted once per (missing target, entry)
pair: `affectedFiles` comes back 2 although only one distinct document
received annotations. -/
theorem c5_counterexample_affected_files_double_counted :
    (validateVaultLinks envAllOk "v".data
        [("a.md".data, "x [[M1]] y [[M2]] z".data)]).map
      (fun r => (r.2.affectedFiles,
        (r.1.filter (fun fc =>
          !(readVault [("a.md".data, "x [[M1]] y [[M2]] z".data)] fc.1 ==
            some fc.2))).length)) = .ok (2, 1) ∧ (2 : Nat) ≠ 1 := by
  refine ⟨by decide, by decide⟩

theorem writeVault_keys (v : List (List Char × List Char)) (rel c : List Char) :
    (writeVault v rel c).map Prod.fst = v.map Prod.fst := by
  induction v with
  | nil => rfl
  | cons fc v ih =>
    unfold writeVault at ih ⊢
    simp only [List.map_cons]
    split <;> simp [ih] <;> (intro a b _; split <;> rfl)

theorem readVault_isSome_eq {v w : List (List Char × List Char)}
    (h : v.map Prod.fst = w.map Prod.fst) (r : List Char) :
    (readVault v r).isSome = (readVault w r).isSome := by
  induction v generalizing w with
  | nil =>
    cases w with
    | nil => rfl
    | cons gc w => exact absurd h (by simp)
  | cons fc v ih =>
    cases w with
    | nil => exact absurd h (by simp)
    | cons gc w =>
      simp only [List.map_cons, List.cons.injEq] at h
      unfold readVault
      simp only [List.find?]
      rw [h.1]
      cases hb : (gc.1 == r) with
      | true => simp
      | false =>
        have := ih h.2
        unfold readVault at this
        cases h1 : List.find? (fun fc => fc.1 == r) v <;>
          cases h2 : List.find? (fun fc => fc.1 == r) w <;>
            simp [h1, h2] at this ⊢

theorem anyKey_eq {v w : List (List Char × List Char)}
    (h : v.map Prod.fst = w.map Prod.fst) (P : List Char → Bool) :
    v.any (fun fc => P fc.1) = w.any (fun fc => P fc.1) := by
  induction v generalizing w with
  | nil =>
    cases w with
    | nil => rfl
    | cons gc w => exact absurd h (by simp)
  | cons fc v ih =>
    cases w with
    | nil => exact absurd h (by simp)
    | cons gc w =>
      simp only [List.map_cons, List.cons.injEq] at h
      simp [List.any, h.1, ih h.2]

theorem validateBacklinkStep_spec (env : FsEnv) {vault0 : List (List Char × List Char)}
    (acc : List (List Char × List Char) × ValidateTotals) (bl : Backlink)
    (hkeys : acc.1.map Prod.fst = vault0.map Prod.fst) :
    (validateBacklinkStep env acc bl).1.map Prod.fst = vault0.map Prod.fst ∧
    (validateBacklinkStep env acc bl).2.affectedFiles =
      acc.2.affectedFiles + (if backlinkCounted env vault0 bl then 1 else 0) := by
  unfold validateBacklinkStep backlinkCounted
  cases hro : env.readOk bl.sourceFile with
  | false => simp [hro, hkeys]
  | true =>
    simp only [hro, Bool.not_true]
    cases hrv : readVault acc.1 bl.sourceFile with
    | none =>
      have : (readVault vault0 bl.sourceFile).isSome = false := by
        rw [← readVault_isSome_eq hkeys]
        simp [hrv]
      simp [hkeys, this]
    | some content0 =>
      have hsome : (readVault vault0 bl.sourceFile).isSome = true := by
        rw [← readVault_isSome_eq hkeys]
        simp [hrv]
      simp only []
      cases hlen : decide (bl.links.length > 0) with
      | false =>
        have : ¬ bl.links.length > 0 := of_decide_eq_false hlen
        simp [this, hkeys, hsome, hlen]
      | true =>
        have hlen' : bl.links.length > 0 := of_decide_eq_true hlen
        cases hwo : env.writeOk bl.sourceFile with
        | false => simp [hlen', hkeys, hsome, hwo]
        | true => simp [hlen', hkeys, hsome, hwo, writeVault_keys]

theorem validateBacklinks_fold_spec (env : FsEnv) {vault0 : List (List Char × List Char)}
    (bls : List Backlink) :
    ∀ (acc : List (List Char × List Char) × ValidateTotals),
      acc.1.map Prod.fst = vault0.map Prod.fst →
      (bls.foldl (validateBacklinkStep env) acc).1.map Prod.fst = vault0.map Prod.fst ∧
      (bls.foldl (validateBacklinkStep env) acc).2.affectedFiles =
        acc.2.affectedFiles + (bls.filter (backlinkCounted env vault0)).length := by
  induction bls with
  | nil => intro acc hk; exact ⟨hk, by simp⟩
  | cons bl bls ih =>
    intro acc hk
    obtain ⟨hk1, ha1⟩ := validateBacklinkStep_spec env acc bl hk
    obtain ⟨hk2, ha2⟩ := ih (validateBacklinkStep env acc bl) hk1
    rw [List.foldl_cons]
    refine ⟨hk2, ?_⟩
    rw [ha2, ha1, List.filter_cons]
    cases hc : backlinkCounted env vault0 bl <;> simp [hc] <;> omega

theorem validateMap_fold_spec (env : FsEnv) (vaultPath : List Char)
    {vault0 : List (List Char × List Char)} (m : WikiLinkMap) :
    ∀ (acc : List (List Char × List Char) × ValidateTotals),
      acc.1.map Prod.fst = vault0.map Prod.fst →
      ((m.foldl
        (fun acc e =>
          if acc.1.any (fun fc =>
            pathJoin vaultPath fc.1 == pathJoin vaultPath (e.1 ++ ".md".data)) then acc
          else e.2.foldl (validateBacklinkStep env) acc)
        acc).2.affectedFiles =
        acc.2.affectedFiles + countAffectedEntries env vaultPath vault0 m) ∧
      (m.foldl
        (fun acc e =>
          if acc.1.any (fun fc =>
            pathJoin vaultPath fc.1 == pathJoin vaultPath (e.1 ++ ".md".data)) then acc
          else e.2.foldl (validateBacklinkStep env) acc)
        acc).1.map Prod.fst = vault0.map Prod.fst := by
  induction m with
  | nil =>
    intro acc hk
    refine ⟨?_, hk⟩
    simp [countAffectedEntries]
  | cons e m ih =>
    intro acc hk
    have hte : (acc.1.any (fun fc =>
        pathJoin vaultPath fc.1 == pathJoin vaultPath (e.1 ++ ".md".data))) =
        targetDocExists vaultPath vault0 e.1 := by
      unfold targetDocExists
      exact anyKey_eq hk
        (fun k => pathJoin vaultPath k == pathJoin vaultPath (e.1 ++ ".md".data))
    have hcount : countAffectedEntries env vaultPath vault0 (e :: m) =
        (if targetDocExists vaultPath vault0 e.1 then 0
          else (e.2.filter (fun bl =>
            env.readOk bl.sourceFile && (readVault vault0 bl.sourceFile).isSome &&
            bl.links.length > 0 && env.writeOk bl.sourceFile)).length) +
        countAffectedEntries env vaultPath vault0 m := by
      unfold countAffectedEntries
      simp
    simp only [List.foldl_cons, hte]
    cases hex : targetDocExists vaultPath vault0 e.1 with
    | true =>
      rw [if_pos rfl]
      obtain ⟨ha, hkk⟩ := ih acc hk
      refine ⟨?_, hkk⟩
      rw [ha, hcount]
      simp [hex]
    | false =>
      rw [if_neg (by simp : ¬ (false = true))]
      obtain ⟨hk1, ha1⟩ := validateBacklinks_fold_spec env e.2 acc hk
      obtain ⟨ha, hkk⟩ := ih _ hk1
      refine ⟨?_, hkk⟩
      rw [ha, ha1, hcount]
      rw [if_neg (by rw [hex]; simp)]
      have hfeq : (e.2.filter (backlinkCounted env vault0)).length =
          (e.2.filter (fun bl =>
            env.readOk bl.sourceFile && (readVault vault0 bl.sourceFile).isSome &&
            bl.links.length > 0 && env.writeOk bl.sourceFile)).length := rfl
      omega

/-- C5 (amended): `affectedFiles` counts processed (missing target,
backlink entry) pairs, not distinct documents: whenever path validation
succeeds, the returned `affectedFiles` equals the number of backlink
entries, summed over all index targets without a root-level document,
whose source file is readable, present and writable and holds at least one
occurrence.  A document with broken links to several distinct missing
targets contributes once per such entry, not once. -/
theorem c5_affected_files_counts_entries (env : FsEnv) (vaultPath : List Char)
    (vault : List (List Char × List Char)) (h : env.validateOk = true) :
    (validateVaultLinks env vaultPath vault).map (fun r => r.2.affectedFiles) =
      .ok (countAffectedEntries env vaultPath vault
        (createWikiLinkMap vaultPath vault)) := by
  unfold validateVaultLinks
  rw [h]
  show Except.ok ((List.foldl
      (fun (acc : List (List Char × List Char) × ValidateTotals)
           (e : List Char × List Backlink) =>
        if acc.1.any (fun fc =>
          pathJoin vaultPath fc.1 == pathJoin vaultPath (e.1 ++ ".md".data)) then acc
        else e.2.foldl (validateBacklinkStep env) acc)
      (vault, ⟨0, 0, 0⟩) (createWikiLinkMap vaultPath vault)).2.affectedFiles) =
    Except.ok (countAffectedEntries env vaultPath vault (createWikiLinkMap vaultPath vault))
  have hspec := (validateMap_fold_spec env vaultPath
    (createWikiLinkMap vaultPath vault) (vault, ⟨0, 0, 0⟩) rfl).1
  rw [hspec]
  simp

/-- C5 witness: the entry-count characterization at the concrete
double-counting vault. -/
theorem c5_affected_files_counts_entries_witness :
    (validateVaultLinks envAllOk "v".data
        [("a.md".data, "x [[M1]] y [[M2]] z".data)]).map (fun r => r.2.affectedFiles) =
      .ok (countAffectedEntries envAllOk "v".data
        [("a.md".data, "x [[M1]] y [[M2]] z".data)]
        (createWikiLinkMap "v".data [("a.md".data, "x [[M1]] y [[M2]] z".data)])) :=
  c5_affected_files_counts_entries envAllOk "v".data
    [("a.md".data, "x [[M1]] y [[M2]] z".data)] rfl

theorem readVault_cons_self (fc : List Char × List Char) (C : List (List Char × List Char)) :
    readVault (fc :: C) fc.1 = some fc.2 := by
  unfold readVault
  simp [List.find?]

theorem readVault_append_notin {A : List (List Char × List Char)} {rel : List Char}
    (h : rel ∉ A.map Prod.fst) (C : List (List Char × List Char)) :
    readVault (A ++ C) rel = readVault C rel := by
  induction A with
  | nil => rfl
  | cons fc A ih =>
    simp only [List.map_cons, List.mem_cons, not_or] at h
    unfold readVault at ih ⊢
    simp only [List.cons_append, List.find?]
    have : (fc.1 == rel) = false := by
      simp only [beq_eq_false_iff_ne]
      exact fun he => h.1 he.symm
    rw [this]
    exact ih h.2

theorem writeVault_append (A C : List (List Char × List Char)) (rel c : List Char) :
    writeVault (A ++ C) rel c = writeVault A rel c ++ writeVault C rel c := by
  unfold writeVault
  exact List.map_append _ A C

theorem writeVault_notin {A : List (List Char × List Char)} {rel : List Char}
    (h : rel ∉ A.map Prod.fst) (c : List Char) : writeVault A rel c = A := by
  induction A with
  | nil => rfl
  | cons fc A ih =>
    simp only [List.map_cons, List.mem_cons, not_or] at h
    unfold writeVault at ih ⊢
    simp only [List.map_cons]
    have hne : (fc.1 == rel) = false := by
      simp only [beq_eq_false_iff_ne]
      exact fun he => h.1 he.symm
    have h1 : (if (fc.1 == rel) = true then (fc.1, c) else fc) = fc := by
      rw [hne]
      simp
    rw [h1, ih h.2]

theorem writeVault_cons_self {fc : List Char × List Char} {B : List (List Char × List Char)}
    (h : fc.1 ∉ B.map Prod.fst) (c : List Char) :
    writeVault (fc :: B) fc.1 c = (fc.1, c) :: B := by
  unfold writeVault
  simp only [List.map_cons, beq_self_eq_true, if_pos rfl]
  have hB : writeVault B fc.1 c = B := writeVault_notin h c
  unfold writeVault at hB
  rw [hB]
  simp

/-- The vault-loop step applied at a key present exactly once (head of the
unprocessed suffix): the entry is rewritten in place to
`updateVaultLinksFileRes` and the count grows iff `updateVaultLinksCounted`. -/
theorem updateVaultLinksStep_at_head (env : FsEnv) (vaultPath : List Char)
    (oldPath newPath src dst : Option (List Char))
    {A B : List (List Char × List Char)} (fc : List Char × List Char) (k : Nat)
    (hA : fc.1 ∉ A.map Prod.fst) (hB : fc.1 ∉ B.map Prod.fst) :
    updateVaultLinksStep env vaultPath oldPath newPath src dst (A ++ fc :: B, k) fc.1 =
    (A ++ (fc.1, updateVaultLinksFileRes env vaultPath oldPath newPath src dst fc.1 fc.2) :: B,
     k + (if updateVaultLinksCounted env vaultPath oldPath newPath src dst fc.1 fc.2
          then 1 else 0)) := by
  have hread : readVault (A ++ fc :: B) fc.1 = some fc.2 := by
    rw [readVault_append_notin hA, readVault_cons_self]
  unfold updateVaultLinksStep updateVaultLinksFileRes updateVaultLinksCounted
  cases hskip : (truthy newPath && (pathJoin vaultPath fc.1 ==
      pathJoin vaultPath (newPath.getD []))) with
  | true => simp [hskip]
  | false =>
    cases hro : env.readOk fc.1 with
    | false => simp [hskip, hro]
    | true =>
      simp only [hskip, hro, Bool.not_true, Bool.false_eq_true,
        if_neg (by simp : ¬ False), hread]
      by_cases hch : fc.2 = updateVaultLinksFinal oldPath newPath src dst fc.2
      · simp [← hch]
      · cases hwo : env.writeOk fc.1 with
        | false => simp [hch, hwo]
        | true =>
          have hw : writeVault (A ++ fc :: B) fc.1
              (updateVaultLinksFinal oldPath newPath src dst fc.2) =
              A ++ (fc.1, updateVaultLinksFinal oldPath newPath src dst fc.2) :: B := by
            rw [writeVault_append, writeVault_notin hA, writeVault_cons_self hB]
          simp [hch, hwo, hw]

/-- The whole vault loop, split as processed prefix `A` and unprocessed
suffix `B` with pairwise-distinct keys: every file of `B` ends at its
pointwise result and the count grows by the number of counted files. -/
theorem updateVaultLinks_fold_spec (env : FsEnv) (vaultPath : List Char)
    (oldPath newPath src dst : Option (List Char)) :
    ∀ (B A : List (List Char × List Char)) (k : Nat),
      (∀ r ∈ B.map Prod.fst, r ∉ A.map Prod.fst) →
      (B.map Prod.fst).Nodup →
      (B.map Prod.fst).foldl
        (updateVaultLinksStep env vaultPath oldPath newPath src dst) (A ++ B, k) =
      (A ++ B.map (fun fc =>
          (fc.1, updateVaultLinksFileRes env vaultPath oldPath newPath src dst fc.1 fc.2)),
       k + (B.filter (fun fc =>
          updateVaultLinksCounted env vaultPath oldPath newPath src dst fc.1 fc.2)).length) := by
  intro B
  induction B with
  | nil => intro A k _ _; simp
  | cons fc B' ih =>
    intro A k hdisj hnd
    have hA : fc.1 ∉ A.map Prod.fst := hdisj fc.1 (by simp)
    simp only [List.map_cons, List.nodup_cons] at hnd
    have hB' : fc.1 ∉ B'.map Prod.fst := hnd.1
    simp only [List.map_cons, List.foldl_cons]
    rw [updateVaultLinksStep_at_head env vaultPath oldPath newPath src dst fc k hA hB']
    have hsplit : A ++ (fc.1,
        updateVaultLinksFileRes env vaultPath oldPath newPath src dst fc.1 fc.2) :: B' =
        (A ++ [(fc.1,
        updateVaultLinksFileRes env vaultPath oldPath newPath src dst fc.1 fc.2)]) ++ B' := by
      simp
    rw [hsplit]
    have hdisj' : ∀ r ∈ B'.map Prod.fst, r ∉ ((A ++ [(fc.1,
        updateVaultLinksFileRes env vaultPath oldPath newPath src dst fc.1 fc.2)]).map
        Prod.fst) := by
      intro r hr
      simp only [List.map_append, List.mem_append, List.map_cons, List.map_nil,
        List.mem_singleton]
      rintro (h1 | h2)
      · exact hdisj r (by simp [hr]) h1
      · exact hB' (h2 ▸ hr)
    rw [ih (A ++ [(fc.1,
        updateVaultLinksFileRes env vaultPath oldPath newPath src dst fc.1 fc.2)])
        _ hdisj' hnd.2]
    rw [List.filter_cons]
    simp only [Prod.mk.injEq]
    constructor
    · simp
    · by_cases hc : updateVaultLinksCounted env vaultPath oldPath newPath src dst fc.1 fc.2
      · simp [hc]; omega
      · simp [hc]

/-- C8: the error tiers of `updateVaultLinks`.  A path-validation failure
aborts the whole call with a path-violation error; an enumeration failure
aborts it with an internal error; otherwise the call succeeds, every
document still ends at its own pointwise result (a document whose read or
write fails is left unchanged while all others are processed), and the
returned count includes exactly the documents that were changed and
writable — failed documents are excluded. -/
theorem c8_error_tiers (env : FsEnv) (vaultPath : List Char)
    (oldPath newPath src dst : Option (List Char))
    (vault : List (List Char × List Char))
    (hnd : (vault.map Prod.fst).Nodup) :
    (env.validateOk = false →
      updateVaultLinks env vaultPath oldPath newPath src dst vault = .error .pathViolation) ∧
    (env.validateOk = true → env.enumOk = false →
      updateVaultLinks env vaultPath oldPath newPath src dst vault = .error .internalError) ∧
    (env.validateOk = true → env.enumOk = true →
      updateVaultLinks env vaultPath oldPath newPath src dst vault =
        .ok (vault.map (fun fc =>
              (fc.1, updateVaultLinksFileRes env vaultPath oldPath newPath src dst fc.1 fc.2)),
             (vault.filter (fun fc =>
              updateVaultLinksCounted env vaultPath oldPath newPath src dst
                fc.1 fc.2)).length)) := by
  refine ⟨fun hv => ?_, fun hv he => ?_, fun hv he => ?_⟩
  · simp [updateVaultLinks, hv]
  · simp [updateVaultLinks, hv, he]
  · have h := updateVaultLinks_fold_spec env vaultPath oldPath newPath src dst vault [] 0
      (by simp) hnd
    simp only [List.nil_append, Nat.zero_add] at h
    simp [updateVaultLinks, hv, he, h]

/-- Concrete run of C8's recoverable tier: reading `a.md` fails, so it is
left unchanged and uncounted, while `b.md` is still processed and counted. -/
theorem c8_error_tiers_witness :
    updateVaultLinks ⟨true, true, fun r => !(r == "a.md".data), fun _ => true⟩
      "/v".data (some "Note.md".data) none none none
      [("a.md".data, "[[Note]]".data), ("b.md".data, "[[Note]]".data)] =
    .ok ([("a.md".data, "[[Note]]".data), ("b.md".data, "~~[[Note]]~~".data)], 1) := by
  have h := (c8_error_tiers ⟨true, true, fun r => !(r == "a.md".data), fun _ => true⟩
      "/v".data (some "Note.md".data) none none none
      [("a.md".data, "[[Note]]".data), ("b.md".data, "[[Note]]".data)] (by decide)).2.2 rfl rfl
  exact h.trans (by decide)
